import Mathlib

/-!
Verification of the format-converter, streaming reassembler and account-router
core of the antigravity-claude-proxy repository.

The JavaScript source manipulates dynamically-typed JSON values (content
blocks, upstream parts, schemas).  We embed those values as the inductive
type JVal below and translate each source function into a total Lean
function over JVal, mirroring the JavaScript semantics (truthiness,
property access returning "undefined" as Option.none, strict equality
with string literals) field by field.
-/

set_option autoImplicit false

namespace Proxy

/-- A JSON-ish JavaScript value.  Objects are association lists in key
order (the source never relies on duplicate keys, which JavaScript objects
cannot have). -/
inductive JVal where
  | null
  | bool (b : Bool)
  | num (n : Int)
  | str (s : String)
  | arr (elems : List JVal)
  | obj (fields : List (String × JVal))

/-- Key lookup in an object's field list; first binding wins (JS objects
have unique keys). -/
def lookupF : List (String × JVal) → String → Option JVal
  | [], _ => none
  | (k', v) :: rest, k => if k' = k then some v else lookupF rest k

/-- JavaScript property access o.k: defined only on objects, returns
none (undefined) otherwise. -/
def getF : JVal → String → Option JVal
  | .obj fs, k => lookupF fs k
  | _, _ => none

/-- JavaScript assignment o.k = v on an object field list: overwrites the
first binding in place, or appends a new binding. -/
def setF : List (String × JVal) → String → JVal → List (String × JVal)
  | [], k, v => [(k, v)]
  | (k', v') :: rest, k, v =>
    if k' = k then (k, v) :: rest else (k', v') :: setF rest k v

/-- JavaScript truthiness (NaN not modelled; numbers are integers here). -/
def jsTruthy : JVal → Bool
  | .null => false
  | .bool b => b
  | .num n => n != 0
  | .str s => s != ""
  | .arr _ => true
  | .obj _ => true

/-- Truthiness of a possibly-undefined value. -/
def jsTruthyOpt : Option JVal → Bool
  | none => false
  | some v => jsTruthy v

/-- typeof v === 'object' && v (truthy): objects and arrays (null is
typeof object but falsy). -/
def jsTruthyObject : JVal → Bool
  | .arr _ => true
  | .obj _ => true
  | _ => false

/-- JavaScript v.length: strings and arrays have a length; on plain
objects it reads the "length" property (numbers only); otherwise
undefined. -/
def jsDotLength (v : JVal) : Option Int :=
  match v with
  | .str s => some s.length
  | .arr xs => some xs.length
  | .obj _ =>
    match getF v "length" with
    | some (.num n) => some n
    | _ => none
  | _ => none

/-- x.length >= n with JavaScript semantics: undefined >= n is false. -/
def jsLengthGE (v : JVal) (n : Int) : Bool :=
  match jsDotLength v with
  | some l => l ≥ n
  | none => false

/-- String.prototype.trim over the character list (the source calls
.trim() on block text; common ASCII whitespace modelled). -/
def trimChars (s : String) : String :=
  String.mk (((s.data.dropWhile Char.isWhitespace).reverse.dropWhile
    Char.isWhitespace).reverse)

/-- Strict equality v.type === t for a string literal t. -/
def typeIs (v : JVal) (t : String) : Bool :=
  match getF v "type" with
  | some (.str s) => s == t
  | _ => false

/-- Strict equality v.thought === true. -/
def thoughtFlag (v : JVal) : Bool :=
  match getF v "thought" with
  | some (.bool b) => b
  | _ => false

-- Constants from src/constants.js.

def MIN_SIGNATURE_LENGTH : Int := 50

def DEFAULT_THINKING_BUDGET : Int := 16000

def CLAUDE_THINKING_MAX_OUTPUT_TOKENS : Int := 64000

def MAX_WAIT_BEFORE_ERROR_MS : Int := 120000

/-- isThinkingPart from the converter: type === 'thinking' ||
type === 'redacted_thinking' || part.thinking !== undefined ||
part.thought === true. -/
def isThinkingPart (part : JVal) : Bool :=
  typeIs part "thinking" ||
  typeIs part "redacted_thinking" ||
  (getF part "thinking").isSome ||
  thoughtFlag part

/-- hasValidSignature: the signature (thoughtSignature for Gemini-style
thought parts, signature otherwise) is a string of length >=
MIN_SIGNATURE_LENGTH. -/
def hasValidSignature (part : JVal) : Bool :=
  let signature :=
    if thoughtFlag part then getF part "thoughtSignature"
    else getF part "signature"
  match signature with
  | some (.str s) => (s.length : Int) ≥ MIN_SIGNATURE_LENGTH
  | _ => false

/-- sanitizeThinkingPart: keep only the allowed fields of a thinking
part, in both Gemini style (thought/text/thoughtSignature) and Anthropic
style (type/thinking/signature). -/
def sanitizeThinkingPart (part : JVal) : JVal :=
  if thoughtFlag part then
    .obj ([("thought", .bool true)] ++
      (match getF part "text" with | some t => [("text", t)] | none => []) ++
      (match getF part "thoughtSignature" with
       | some s => [("thoughtSignature", s)] | none => []))
  else if typeIs part "thinking" || (getF part "thinking").isSome then
    .obj ([("type", .str "thinking")] ++
      (match getF part "thinking" with | some t => [("thinking", t)] | none => []) ++
      (match getF part "signature" with
       | some s => [("signature", s)] | none => []))
  else part

/-- filterContentArray: keep non-objects and non-thinking items as they
are, keep validly signed thinking items sanitized, drop unsigned thinking
items. -/
def filterContentArray : List JVal → List JVal
  | [] => []
  | item :: rest =>
    if ¬ jsTruthyObject item then item :: filterContentArray rest
    else if ¬ isThinkingPart item then item :: filterContentArray rest
    else if hasValidSignature item then
      sanitizeThinkingPart item :: filterContentArray rest
    else filterContentArray rest

/-- filterUnsignedThinkingBlocks: map over Gemini contents, filtering the
parts array of each { role, parts } object. -/
def filterUnsignedThinkingBlocks (contents : List JVal) : List JVal :=
  contents.map fun content =>
    if ¬ jsTruthyObject content then content
    else
      match content, getF content "parts" with
      | .obj fs, some (.arr parts) =>
        .obj (setF fs "parts" (.arr (filterContentArray parts)))
      | _, _ => content

/-- A block the backwards scan of removeTrailingThinkingBlocks removes: a
truthy object that is a thinking part without a valid signature. -/
def removableThinking (block : JVal) : Bool :=
  jsTruthyObject block && isThinkingPart block && ! hasValidSignature block

/-- The backwards scan of removeTrailingThinkingBlocks, expressed on the
reversed content list: drop unsigned thinking blocks until the first
signed thinking block or non-thinking block. -/
def rtbAux : List JVal → List JVal
  | [] => []
  | block :: rest =>
    if removableThinking block then rtbAux rest else block :: rest

/-- removeTrailingThinkingBlocks on a content array. -/
def removeTrailingCore (content : List JVal) : List JVal :=
  (rtbAux content.reverse).reverse

/-- removeTrailingThinkingBlocks: non-arrays pass through unchanged. -/
def removeTrailingThinkingBlocks (content : JVal) : JVal :=
  match content with
  | .arr blocks => .arr (removeTrailingCore blocks)
  | other => other

/-- sanitizeAnthropicThinkingBlock: keep only type/thinking/signature of
a thinking block, or type/data of a redacted_thinking block. -/
def sanitizeAnthropicThinkingBlock (block : JVal) : JVal :=
  if ¬ jsTruthy block then block
  else if typeIs block "thinking" then
    .obj ([("type", .str "thinking")] ++
      (match getF block "thinking" with | some t => [("thinking", t)] | none => []) ++
      (match getF block "signature" with
       | some s => [("signature", s)] | none => []))
  else if typeIs block "redacted_thinking" then
    .obj ([("type", .str "redacted_thinking")] ++
      (match getF block "data" with | some d => [("data", d)] | none => []))
  else block

/-- restoreThinkingSignatures on a content array: drop 'thinking'-typed
blocks whose signature is falsy or has length < MIN_SIGNATURE_LENGTH
(block.signature && block.signature.length >= MIN_SIGNATURE_LENGTH),
sanitize the kept ones, pass every other block through. -/
def restoreCore : List JVal → List JVal
  | [] => []
  | block :: rest =>
    if ! jsTruthy block || ! typeIs block "thinking" then
      block :: restoreCore rest
    else if jsTruthyOpt (getF block "signature") &&
            jsLengthGE ((getF block "signature").getD .null) MIN_SIGNATURE_LENGTH then
      sanitizeAnthropicThinkingBlock block :: restoreCore rest
    else restoreCore rest

/-- restoreThinkingSignatures: non-arrays pass through unchanged. -/
def restoreThinkingSignatures (content : JVal) : JVal :=
  match content with
  | .arr blocks => .arr (restoreCore blocks)
  | other => other

/-- A text block reorderAssistantContent keeps:
block.text && block.text.trim().length > 0.  The source calls .trim() on
any truthy text value; a truthy non-string would throw a TypeError there,
which has no counterpart in this total model, so only string text values
are meaningful here. -/
def keepTextBlock (block : JVal) : Bool :=
  match getF block "text" with
  | some (.str s) => s != "" && (trimChars s).length != 0
  | _ => false

/-- The three-way partition loop of reorderAssistantContent: thinking and
redacted_thinking blocks (sanitized), text blocks with meaningful content
plus other block types, and tool_use blocks; falsy blocks are skipped. -/
def reorderPartition : List JVal → List JVal × List JVal × List JVal
  | [] => ([], [], [])
  | block :: rest =>
    let (thinkingBlocks, textBlocks, toolUseBlocks) := reorderPartition rest
    if ¬ jsTruthy block then (thinkingBlocks, textBlocks, toolUseBlocks)
    else if typeIs block "thinking" || typeIs block "redacted_thinking" then
      (sanitizeAnthropicThinkingBlock block :: thinkingBlocks, textBlocks, toolUseBlocks)
    else if typeIs block "tool_use" then
      (thinkingBlocks, textBlocks, block :: toolUseBlocks)
    else if typeIs block "text" then
      if keepTextBlock block then (thinkingBlocks, block :: textBlocks, toolUseBlocks)
      else (thinkingBlocks, textBlocks, toolUseBlocks)
    else (thinkingBlocks, block :: textBlocks, toolUseBlocks)

/-- reorderAssistantContent on a content array: a single-element array is
only sanitized when it holds a thinking/redacted_thinking block; otherwise
the blocks are partitioned and concatenated as thinking, text/other,
tool_use. -/
def reorderCore (content : List JVal) : List JVal :=
  match content with
  | [block] =>
    if jsTruthy block &&
        (typeIs block "thinking" || typeIs block "redacted_thinking") then
      [sanitizeAnthropicThinkingBlock block]
    else [block]
  | _ =>
    let (thinkingBlocks, textBlocks, toolUseBlocks) := reorderPartition content
    thinkingBlocks ++ textBlocks ++ toolUseBlocks

/-- reorderAssistantContent: non-arrays pass through unchanged. -/
def reorderAssistantContent (content : JVal) : JVal :=
  match content with
  | .arr blocks => .arr (reorderCore blocks)
  | other => other

/-- The assistant-message normalization pipeline applied by
convertAnthropicToGoogle to assistant content arrays:
restoreThinkingSignatures, then removeTrailingThinkingBlocks, then
reorderAssistantContent. -/
def assistantPipeline (content : List JVal) : List JVal :=
  reorderCore (removeTrailingCore (restoreCore content))

/-- Stringification used for String(content) on non-array, non-string
content (only its totality matters to the claims). -/
def jsToString : JVal → String
  | .null => "null"
  | .bool true => "true"
  | .bool false => "false"
  | .num n => toString n
  | .str s => s
  | .arr _ => ""
  | .obj _ => "[object Object]"

/-- Conversion of a single Anthropic content block to Google parts
(the body of the for-loop of convertContentToParts); each block produces
zero or more parts, appended in order.  Random tool-use ids do not occur
on this path (ids are copied from the block); JSON is carried as JVal. -/
def convertBlockToParts (block : JVal) (isClaudeModel : Bool) : List JVal :=
  if typeIs block "text" then
    match getF block "text" with
    | some (.str s) =>
      if s != "" && trimChars s != "" then [.obj [("text", .str s)]] else []
    | _ => []
  else if typeIs block "image" then
    match getF block "source" with
    | some source =>
      if typeIs source "base64" then
        [.obj [("inlineData", .obj
          [("mimeType", (getF source "media_type").getD .null),
           ("data", (getF source "data").getD .null)])]]
      else if typeIs source "url" then
        [.obj [("fileData", .obj
          [("mimeType", (getF source "media_type").getD (.str "image/jpeg")),
           ("fileUri", (getF source "url").getD .null)])]]
      else []
    | none => []
  else if typeIs block "document" then
    match getF block "source" with
    | some source =>
      if typeIs source "base64" then
        [.obj [("inlineData", .obj
          [("mimeType", (getF source "media_type").getD .null),
           ("data", (getF source "data").getD .null)])]]
      else if typeIs source "url" then
        [.obj [("fileData", .obj
          [("mimeType", (getF source "media_type").getD (.str "application/pdf")),
           ("fileUri", (getF source "url").getD .null)])]]
      else []
    | none => []
  else if typeIs block "tool_use" then
    let args := if jsTruthyOpt (getF block "input") then (getF block "input").getD .null
                else .obj []
    let base := [("name", (getF block "name").getD .null), ("args", args)]
    let fields := if isClaudeModel && jsTruthyOpt (getF block "id") then
        base ++ [("id", (getF block "id").getD .null)]
      else base
    [.obj [("functionCall", .obj fields)]]
  else if typeIs block "tool_result" then
    let responseContent :=
      match getF block "content" with
      | some (.str s) => .obj [("result", .str s)]
      | some (.arr cs) =>
        let texts := cs.filterMap fun c =>
          if typeIs c "text" then
            match getF c "text" with
            | some (.str s) => some s
            | some _ => some ""
            | none => some ""
          else none
        JVal.obj [("result", .str (String.intercalate "\n" texts))]
      | some v => v
      | none => .null
    let base := [("name", ((getF block "tool_use_id").getD (.str "unknown"))),
                 ("response", responseContent)]
    let fields := if isClaudeModel && jsTruthyOpt (getF block "tool_use_id") then
        base ++ [("id", (getF block "tool_use_id").getD .null)]
      else base
    [.obj [("functionResponse", .obj fields)]]
  else if typeIs block "thinking" then
    if jsTruthyOpt (getF block "signature") &&
        jsLengthGE ((getF block "signature").getD .null) MIN_SIGNATURE_LENGTH then
      [.obj [("text", (getF block "thinking").getD .null),
             ("thought", .bool true),
             ("thoughtSignature", (getF block "signature").getD .null)]]
    else []
  else []

/-- convertContentToParts: string content becomes one text part, other
non-arrays are stringified, arrays are converted block by block. -/
def convertContentToParts (content : JVal) (isClaudeModel : Bool) : List JVal :=
  match content with
  | .str s => [.obj [("text", .str s)]]
  | .arr blocks => blocks.flatMap (fun b => convertBlockToParts b isClaudeModel)
  | other => [.obj [("text", .str (jsToString other))]]

/-- ASCII lower-casing of one character (the model names the converter
lower-cases are ASCII). -/
def lowerAscii (c : Char) : Char :=
  if 'A' ≤ c ∧ c ≤ 'Z' then Char.ofNat (c.toNat + 32) else c

/-- modelName.toLowerCase() over the ASCII model names. -/
def strToLower (s : String) : String := String.mk (s.data.map lowerAscii)

/-- needle begins the character list. -/
def beginsWith : List Char → List Char → Bool
  | [], _ => true
  | _ :: _, [] => false
  | n :: ns, h :: hs => n == h && beginsWith ns hs

/-- haystack.includes(needle) over character lists. -/
def containsChars : List Char → List Char → Bool
  | [], needle => needle.isEmpty
  | h :: hs, needle => beginsWith needle (h :: hs) || containsChars hs needle

/-- modelName.includes(needle): substring containment. -/
def strIncludes (s needle : String) : Bool :=
  containsChars s.data needle.data

/-- The name of an Anthropic model, lower-cased, decides Claude handling
and thinking support in convertAnthropicToGoogle. -/
def isClaudeModelName (model : String) : Bool :=
  strIncludes (strToLower model) "claude"

def isClaudeThinkingModelName (model : String) : Bool :=
  isClaudeModelName model && strIncludes (strToLower model) "thinking"

/-- The generationConfig portion of convertAnthropicToGoogle that the
thinking claims depend on: maxOutputTokens from the request's max_tokens
(skipped when falsy), and for Claude thinking models a thinkingConfig
with include_thoughts and a budget of thinking.budget_tokens ||
DEFAULT_THINKING_BUDGET, raising maxOutputTokens to
CLAUDE_THINKING_MAX_OUTPUT_TOKENS when absent or not above the budget. -/
structure ThinkingGenConfig where
  maxOutputTokens : Option Int
  includeThoughts : Bool
  thinkingBudget : Option Int
deriving DecidableEq, Repr

/-- thinking?.budget_tokens || DEFAULT_THINKING_BUDGET. -/
def effectiveThinkingBudget (budgetTokens : Option Int) : Int :=
  match budgetTokens with
  | some b => if b != 0 then b else DEFAULT_THINKING_BUDGET
  | none => DEFAULT_THINKING_BUDGET

def buildGenerationConfig (model : String) (maxTokens : Option Int)
    (budgetTokens : Option Int) : ThinkingGenConfig :=
  let base : Option Int :=
    match maxTokens with
    | some m => if m != 0 then some m else none
    | none => none
  if isClaudeThinkingModelName model then
    let thinkingBudget := effectiveThinkingBudget budgetTokens
    let maxOut :=
      match base with
      | some m => if m ≤ thinkingBudget then some CLAUDE_THINKING_MAX_OUTPUT_TOKENS else some m
      | none => some CLAUDE_THINKING_MAX_OUTPUT_TOKENS
    { maxOutputTokens := maxOut, includeThoughts := true,
      thinkingBudget := some thinkingBudget }
  else
    { maxOutputTokens := base, includeThoughts := false, thinkingBudget := none }

/-- x || dflt for token counters (usageMetadata.promptTokenCount || 0
and similar; non-numeric counter values are not modelled). -/
def tokOr (v : Option JVal) (dflt : Int) : Int :=
  match v with
  | some (.num n) => if n != 0 then n else dflt
  | _ => dflt

/-- googleResponse.response || googleResponse. -/
def innerResponse (googleResponse : JVal) : JVal :=
  if jsTruthyOpt (getF googleResponse "response") then
    (getF googleResponse "response").getD .null
  else googleResponse

/-- (response.candidates || [])[0] || {} (indexing a truthy non-array
candidates value is not modelled and yields {}). -/
def firstCandidate (response : JVal) : JVal :=
  match getF response "candidates" with
  | some (.arr (c :: _)) => c
  | _ => .obj []

/-- (candidate.content || {}).parts || [] as a part list (a truthy
non-array parts value, over which the source's for-of would throw, is not
modelled and yields []). -/
def candidateParts (candidate : JVal) : List JVal :=
  if jsTruthyOpt (getF candidate "content") then
    match getF ((getF candidate "content").getD .null) "parts" with
    | some (.arr ps) => ps
    | _ => []
  else []

/-- Placeholder for the crypto.randomBytes-generated tool-use id; the id
is opaque to the converter and never inspected, so randomness is
abstracted as a fixed string. -/
def GENERATED_TOOL_ID : String := "toolu_generated"

/-- The per-part conversion of convertGoogleToAnthropic: thought parts
become thinking blocks (signature = part.thoughtSignature || ''), plain
text parts become text blocks, functionCall parts become tool_use blocks
(id = functionCall.id || generated, input = args || {}); other parts are
skipped. -/
def googlePartToBlock (part : JVal) : Option JVal :=
  if (getF part "text").isSome then
    if thoughtFlag part then
      let signature :=
        if jsTruthyOpt (getF part "thoughtSignature") then
          (getF part "thoughtSignature").getD .null
        else .str ""
      some (.obj [("type", .str "thinking"),
                  ("thinking", (getF part "text").getD .null),
                  ("signature", signature)])
    else
      some (.obj [("type", .str "text"), ("text", (getF part "text").getD .null)])
  else if jsTruthyOpt (getF part "functionCall") then
    let fc := (getF part "functionCall").getD .null
    let id := if jsTruthyOpt (getF fc "id") then (getF fc "id").getD .null
              else .str GENERATED_TOOL_ID
    let args := if jsTruthyOpt (getF fc "args") then (getF fc "args").getD .null
                else .obj []
    some (.obj [("type", .str "tool_use"), ("id", id),
                ("name", (getF fc "name").getD .null), ("input", args)])
  else none

/-- Whether a Google part counts as a tool call in
convertGoogleToAnthropic (sets hasToolCalls). -/
def partIsToolCall (part : JVal) : Bool :=
  (getF part "text").isNone && jsTruthyOpt (getF part "functionCall")

/-- Stop-reason mapping of convertGoogleToAnthropic: the if/else-if chain
checks finishReason === 'STOP' first, then 'MAX_TOKENS', and only then
'TOOL_USE' or the presence of tool calls; everything else keeps the
initial 'end_turn'. -/
def mapStopReason (finishReason : Option JVal) (hasToolCalls : Bool) : String :=
  match finishReason with
  | some (.str s) =>
    if s = "STOP" then "end_turn"
    else if s = "MAX_TOKENS" then "max_tokens"
    else if s = "TOOL_USE" || hasToolCalls then "tool_use"
    else "end_turn"
  | _ => if hasToolCalls then "tool_use" else "end_turn"

/-- The deterministic part of an Anthropic response (the random message
id is abstracted away). -/
structure AnthropicResponse where
  content : List JVal
  stopReason : String
  inputTokens : Int
  outputTokens : Int

/-- convertGoogleToAnthropic. -/
def convertGoogleToAnthropic (googleResponse : JVal) : AnthropicResponse :=
  let response := innerResponse googleResponse
  let candidate := firstCandidate response
  let parts := candidateParts candidate
  let anthropicContent := parts.filterMap googlePartToBlock
  let hasToolCalls := parts.any partIsToolCall
  let stopReason := mapStopReason (getF candidate "finishReason") hasToolCalls
  let usageMetadata :=
    if jsTruthyOpt (getF response "usageMetadata") then
      (getF response "usageMetadata").getD .null
    else .obj []
  { content :=
      if anthropicContent.isEmpty then [.obj [("type", .str "text"), ("text", .str "")]]
      else anthropicContent,
    stopReason := stopReason,
    inputTokens := tokOr (getF usageMetadata "promptTokenCount") 0,
    outputTokens := tokOr (getF usageMetadata "candidatesTokenCount") 0 }

-- Streaming reassembler (streamSSEResponse of cloudcode-output.js),
-- modelled over the list of JSON frames parsed from the SSE feed (the
-- byte-level buffering, line splitting and JSON.parse of the source are
-- abstracted; malformed frames are skipped there and correspond to
-- frames absent from the list).

/-- Protocol-level streaming events; the random message id and the
cacheSignature side effect are abstracted away. -/
inductive SEvent where
  | messageStart (inputTokens cacheRead : Int)
  | contentBlockStart (index : Nat) (block : JVal)
  | contentBlockDelta (index : Nat) (delta : JVal)
  | contentBlockStop (index : Nat)
  | messageDelta (stopReason : String) (outputTokens cacheRead : Int)
  | messageStop

/-- Mutable state of streamSSEResponse. -/
structure StreamState where
  hasEmittedStart : Bool
  blockIndex : Nat
  currentBlockType : Option String
  currentThinkingSignature : String
  inputTokens : Int
  outputTokens : Int
  cacheReadTokens : Int
  stopReason : String

def initialStreamState : StreamState :=
  { hasEmittedStart := false, blockIndex := 0, currentBlockType := none,
    currentThinkingSignature := "", inputTokens := 0, outputTokens := 0,
    cacheReadTokens := 0, stopReason := "end_turn" }

/-- part.text || '' and part.thoughtSignature || '' (string values;
non-string truthy values are not modelled). -/
def strOr (v : Option JVal) (dflt : String) : String :=
  match v with
  | some (.str s) => if s != "" then s else dflt
  | _ => dflt

/-- Processing of one part inside the frame loop of streamSSEResponse. -/
def processPart (s : StreamState) (part : JVal) : StreamState × List SEvent :=
  if thoughtFlag part then
    let text := strOr (getF part "text") ""
    let signature := strOr (getF part "thoughtSignature") ""
    let (s, evs) :=
      if s.currentBlockType ≠ some "thinking" then
        let (s, evs) :=
          if s.currentBlockType ≠ none then
            ({ s with blockIndex := s.blockIndex + 1 },
             [SEvent.contentBlockStop s.blockIndex])
          else (s, [])
        ({ s with currentBlockType := some "thinking", currentThinkingSignature := "" },
         evs ++ [SEvent.contentBlockStart s.blockIndex
                   (.obj [("type", .str "thinking"), ("thinking", .str "")])])
      else (s, [])
    let s := if signature ≠ "" ∧ (signature.length : Int) ≥ MIN_SIGNATURE_LENGTH then
        { s with currentThinkingSignature := signature }
      else s
    (s, evs ++ [SEvent.contentBlockDelta s.blockIndex
                  (.obj [("type", .str "thinking_delta"), ("thinking", .str text)])])
  else if (getF part "text").isSome then
    match getF part "text" with
    | some (.str t) =>
      if t = "" || (trimChars t).length = 0 then (s, [])
      else
        let (s, evs) :=
          if s.currentBlockType ≠ some "text" then
            let (s, evs) :=
              if s.currentBlockType = some "thinking" ∧
                  s.currentThinkingSignature ≠ "" then
                ({ s with currentThinkingSignature := "" },
                 [SEvent.contentBlockDelta s.blockIndex
                    (.obj [("type", .str "signature_delta"),
                           ("signature", .str s.currentThinkingSignature)])])
              else (s, [])
            let (s, evs) :=
              if s.currentBlockType ≠ none then
                ({ s with blockIndex := s.blockIndex + 1 },
                 evs ++ [SEvent.contentBlockStop s.blockIndex])
              else (s, evs)
            ({ s with currentBlockType := some "text" },
             evs ++ [SEvent.contentBlockStart s.blockIndex
                       (.obj [("type", .str "text"), ("text", .str "")])])
          else (s, [])
        (s, evs ++ [SEvent.contentBlockDelta s.blockIndex
                      (.obj [("type", .str "text_delta"), ("text", .str t)])])
    | _ => (s, [])
  else if jsTruthyOpt (getF part "functionCall") then
    let fc := (getF part "functionCall").getD .null
    let functionCallSignature := strOr (getF part "thoughtSignature") ""
    let (s, evs) :=
      if s.currentBlockType = some "thinking" ∧ s.currentThinkingSignature ≠ "" then
        ({ s with currentThinkingSignature := "" },
         [SEvent.contentBlockDelta s.blockIndex
            (.obj [("type", .str "signature_delta"),
                   ("signature", .str s.currentThinkingSignature)])])
      else (s, [])
    let (s, evs) :=
      if s.currentBlockType ≠ none then
        ({ s with blockIndex := s.blockIndex + 1 },
         evs ++ [SEvent.contentBlockStop s.blockIndex])
      else (s, evs)
    let s := { s with currentBlockType := some "tool_use", stopReason := "tool_use" }
    let toolId := if jsTruthyOpt (getF fc "id") then (getF fc "id").getD .null
                  else .str GENERATED_TOOL_ID
    let base := [("type", .str "tool_use"), ("id", toolId),
                 ("name", (getF fc "name").getD .null), ("input", JVal.obj [])]
    let toolUseBlock :=
      if functionCallSignature ≠ "" ∧
          (functionCallSignature.length : Int) ≥ MIN_SIGNATURE_LENGTH then
        JVal.obj (base ++ [("thoughtSignature", .str functionCallSignature)])
      else JVal.obj base
    let args := if jsTruthyOpt (getF fc "args") then (getF fc "args").getD .null
                else .obj []
    (s, evs ++ [SEvent.contentBlockStart s.blockIndex toolUseBlock,
                SEvent.contentBlockDelta s.blockIndex
                  (.obj [("type", .str "input_json_delta"), ("partial_json", args)])])
  else (s, [])

/-- Left fold of processPart over the parts of one frame. -/
def processParts (s : StreamState) : List JVal → StreamState × List SEvent
  | [] => (s, [])
  | part :: rest =>
    let (s1, evs1) := processPart s part
    let (s2, evs2) := processParts s1 rest
    (s2, evs1 ++ evs2)

/-- Processing of one parsed SSE frame: usage update, message_start on
the first frame with parts, the part loop, then the finish-reason update
(STOP and MAX_TOKENS overwrite a previously set stop reason, including
the tool_use set by a functionCall in the same frame). -/
def processFrame (s : StreamState) (frame : JVal) : StreamState × List SEvent :=
  let inner := innerResponse frame
  let s :=
    if jsTruthyOpt (getF inner "usageMetadata") then
      let usage := (getF inner "usageMetadata").getD .null
      { s with
        inputTokens := tokOr (getF usage "promptTokenCount") s.inputTokens,
        outputTokens := tokOr (getF usage "candidatesTokenCount") s.outputTokens,
        cacheReadTokens := tokOr (getF usage "cachedContentTokenCount") s.cacheReadTokens }
    else s
  let candidate := firstCandidate inner
  let parts := candidateParts candidate
  let (s, startEvs) :=
    if ¬ s.hasEmittedStart ∧ ¬ parts.isEmpty then
      ({ s with hasEmittedStart := true },
       [SEvent.messageStart (s.inputTokens - s.cacheReadTokens) s.cacheReadTokens])
    else (s, [])
  let (s, partEvs) := processParts s parts
  let s :=
    if jsTruthyOpt (getF candidate "finishReason") then
      match getF candidate "finishReason" with
      | some (.str fr) =>
        if fr = "MAX_TOKENS" then { s with stopReason := "max_tokens" }
        else if fr = "STOP" then { s with stopReason := "end_turn" }
        else s
      | _ => s
    else s
  (s, startEvs ++ partEvs)

/-- Left fold of processFrame over all frames of the feed. -/
def processFrames (s : StreamState) : List JVal → StreamState × List SEvent
  | [] => (s, [])
  | frame :: rest =>
    let (s1, evs1) := processFrame s frame
    let (s2, evs2) := processFrames s1 rest
    (s2, evs1 ++ evs2)

/-- The text synthesized when the feed produced no content. -/
def NO_RESPONSE_TEXT : String := "[No response received from API]"

/-- The tail of streamSSEResponse after the feed is exhausted: synthesize
a minimal message when nothing was emitted, otherwise flush the trailing
signature and close the open block; then message_delta and
message_stop. -/
def finishStream (s : StreamState) : List SEvent :=
  (if ¬ s.hasEmittedStart then
    [SEvent.messageStart 0 0,
     SEvent.contentBlockStart 0 (.obj [("type", .str "text"), ("text", .str "")]),
     SEvent.contentBlockDelta 0
       (.obj [("type", .str "text_delta"), ("text", .str NO_RESPONSE_TEXT)]),
     SEvent.contentBlockStop 0]
  else
    (if s.currentBlockType ≠ none then
      (if s.currentBlockType = some "thinking" ∧ s.currentThinkingSignature ≠ "" then
        [SEvent.contentBlockDelta s.blockIndex
           (.obj [("type", .str "signature_delta"),
                  ("signature", .str s.currentThinkingSignature)])]
      else []) ++ [SEvent.contentBlockStop s.blockIndex]
    else [])) ++
  [SEvent.messageDelta s.stopReason s.outputTokens s.cacheReadTokens,
   SEvent.messageStop]

/-- streamSSEResponse as a function from the parsed frame list to the
emitted protocol events. -/
def streamSSEResponse (frames : List JVal) : List SEvent :=
  let (s, evs) := processFrames initialStreamState frames
  evs ++ finishStream s

-- Schema sanitizer (sanitizeSchema of the converter).

/-- Object.entries on an array: index keys paired with elements. -/
def enumPairs (i : Nat) : List JVal → List (String × JVal)
  | [] => []
  | v :: rest => (toString i, v) :: enumPairs (i + 1) rest

/-- Object.entries of a value: an object's fields, an array's
index/element pairs, nothing for primitives. -/
def jsEntries : JVal → List (String × JVal)
  | .obj fs => fs
  | .arr xs => enumPairs 0 xs
  | _ => []

mutual

/-- Structural size of a value, used as the termination measure of the
schema recursion (key strings do not count). -/
def jsize : JVal → Nat
  | .null => 1
  | .bool _ => 1
  | .num _ => 1
  | .str _ => 1
  | .arr xs => 1 + jsizeList xs
  | .obj fs => 1 + jsizePairs fs

def jsizeList : List JVal → Nat
  | [] => 0
  | v :: rest => 1 + jsize v + jsizeList rest

def jsizePairs : List (String × JVal) → Nat
  | [] => 0
  | (_, v) :: rest => 1 + jsize v + jsizePairs rest

end

theorem jsizePairs_enumPairs (xs : List JVal) (i : Nat) :
    jsizePairs (enumPairs i xs) = jsizeList xs := by
  induction xs generalizing i with
  | nil => rfl
  | cons v rest ih => simp [enumPairs, jsizePairs, jsizeList, ih]

theorem jsizePairs_jsEntries_lt (s : JVal) :
    jsizePairs (jsEntries s) < jsize s := by
  cases s with
  | arr xs => simp [jsEntries, jsize, jsizePairs_enumPairs]
  | obj fs => simp [jsEntries, jsize]
  | null => simp [jsEntries, jsize, jsizePairs]
  | bool b => simp [jsEntries, jsize, jsizePairs]
  | num n => simp [jsEntries, jsize, jsizePairs]
  | str t => simp [jsEntries, jsize, jsizePairs]

/-- The allowlist of permitted JSON Schema fields. -/
def ALLOWED_FIELDS : List String :=
  ["type", "description", "properties", "required", "items", "enum", "title"]

def allowedField (k : String) : Bool :=
  ALLOWED_FIELDS.contains k

/-- The synthetic properties object injected for contentless object
schemas: a single required string property named reason. -/
def reasonProperties : JVal :=
  .obj [("reason", .obj [("type", .str "string"),
                         ("description", .str "Reason for calling this tool")])]

/-- The placeholder schema returned for empty or non-object input (the
source inlines this literal). -/
def placeholderSchema : JVal :=
  .obj [("type", .str "object"), ("properties", reasonProperties),
        ("required", .arr [.str "reason"])]

/-- Object.keys(v).length as used by the empty-properties check (strings
and arrays have index keys; other primitives have none). -/
def objKeysCount : JVal → Nat
  | .obj fs => fs.length
  | .str s => s.length
  | .arr xs => xs.length
  | _ => 0

/-- typeof v === 'object' && v !== null && !Array.isArray(v): a plain
object. -/
def isObjVal : JVal → Bool
  | .obj _ => true
  | _ => false

/-- sanitized.type === 'object'. -/
def typeResolvedObject : Option JVal → Bool
  | some (.str s) => s == "object"
  | _ => false

/-- !sanitized.properties || Object.keys(sanitized.properties).length === 0. -/
def propertiesMissingOrEmpty (p : Option JVal) : Bool :=
  !jsTruthyOpt p || objKeysCount (p.getD .null) == 0

mutual

/-- sanitizeSchema: allowlist-filter an arbitrary schema value, rewrite
const to enum, default the type to object, and inject the reason
placeholder into contentless object schemas. -/
def sanitizeSchema (schema : JVal) : JVal :=
  if ¬ jsTruthyObject schema then placeholderSchema
  else
    let sanitized := sanitizeFields (jsEntries schema) []
    let sanitized :=
      if ¬ jsTruthyOpt (lookupF sanitized "type") then
        setF sanitized "type" (.str "object")
      else sanitized
    if typeResolvedObject (lookupF sanitized "type") &&
       propertiesMissingOrEmpty (lookupF sanitized "properties") then
      .obj (setF (setF sanitized "properties" reasonProperties)
        "required" (.arr [.str "reason"]))
    else .obj sanitized
termination_by 3 * jsize schema
decreasing_by
  have h := jsizePairs_jsEntries_lt schema
  omega

/-- The Object.entries loop of sanitizeSchema, building the sanitized
field list by JavaScript assignment. -/
def sanitizeFields : List (String × JVal) → List (String × JVal) →
    List (String × JVal)
  | [], acc => acc
  | (key, value) :: rest, acc =>
    sanitizeFields rest (sanitizeFieldStep acc key value)
termination_by l _ => 3 * jsizePairs l
decreasing_by
  · simp only [jsizePairs]
    omega
  · simp only [jsizePairs]
    omega

/-- One iteration of the Object.entries loop: the const rewrite, the
allowlist check, and the properties/items/object recursion. -/
def sanitizeFieldStep (acc : List (String × JVal)) (key : String)
    (value : JVal) : List (String × JVal) :=
  if key = "const" then setF acc "enum" (.arr [value])
  else if ¬ allowedField key then acc
  else if key = "properties" && jsTruthyObject value then
    setF acc "properties" (.obj (sanitizeProps (jsEntries value)))
  else if key = "items" && jsTruthyObject value then
    setF acc "items" (sanitizeItemsValue value)
  else if isObjVal value then
    setF acc key (sanitizeSchema value)
  else setF acc key value
termination_by 3 * jsize value + 2
decreasing_by
  · have h := jsizePairs_jsEntries_lt value
    omega
  · omega
  · omega

/-- items: a single schema or an array of schemas. -/
def sanitizeItemsValue (value : JVal) : JVal :=
  match value with
  | .arr xs => .arr (sanitizeItems xs)
  | other => sanitizeSchema other
termination_by 3 * jsize value + 1
decreasing_by
  · simp only [jsize]
    omega
  · omega

/-- Per-key sanitization of a properties object. -/
def sanitizeProps : List (String × JVal) → List (String × JVal)
  | [] => []
  | (k, v) :: rest => (k, sanitizeSchema v) :: sanitizeProps rest
termination_by l => 3 * jsizePairs l
decreasing_by
  · simp only [jsizePairs]
    omega
  · simp only [jsizePairs]
    omega

/-- Elementwise sanitization of an items array. -/
def sanitizeItems : List JVal → List JVal
  | [] => []
  | v :: rest => sanitizeSchema v :: sanitizeItems rest
termination_by l => 3 * jsizeList l
decreasing_by
  · simp only [jsizeList]
    omega
  · simp only [jsizeList]
    omega

end

attribute [simp] jsize jsizeList jsizePairs

/-- The stop reason the stream resolves (carried by its message_delta). -/
def streamStopReason (frames : List JVal) : String :=
  (processFrames initialStreamState frames).1.stopReason

/-- The usage totals the stream resolves (carried by its message_delta). -/
def streamUsageTotals (frames : List JVal) : Int × Int :=
  let s := (processFrames initialStreamState frames).1
  (s.outputTokens, s.cacheReadTokens)

-- Account router (AccountManager.pickStickyAccount of services/auth.js).

/-- The selection-relevant fields of an upstream account row.  The email
only keeps accounts distinguishable. -/
structure Account where
  email : String
  lastUsed : Option Int
  isRateLimited : Bool
  rateLimitResetTime : Option Int
  isInvalid : Bool
deriving DecidableEq, Repr

/-- The sort key (b.last_used || 0). -/
def lastUsedKey (a : Account) : Int :=
  match a.lastUsed with
  | some t => t
  | none => 0

/-- Stable insertion for the descending last_used sort; ties keep their
original order, as JavaScript's stable Array.prototype.sort does with
the comparator (b.last_used || 0) - (a.last_used || 0). -/
def insertByLastUsedDesc (a : Account) : List Account → List Account
  | [] => [a]
  | b :: rest =>
    if lastUsedKey a > lastUsedKey b then a :: b :: rest
    else b :: insertByLastUsedDesc a rest

def sortByLastUsedDesc : List Account → List Account
  | [] => []
  | a :: rest => insertByLastUsedDesc a (sortByLastUsedDesc rest)

/-- clearExpiredRateLimits, per account: rate-limited rows whose reset
time has passed become available again before selection runs. -/
def clearExpiredAccount (now : Int) (a : Account) : Account :=
  if a.isRateLimited then
    match a.rateLimitResetTime with
    | some r =>
      if r ≤ now then { a with isRateLimited := false, rateLimitResetTime := none }
      else a
    | none => a
  else a

/-- !acc.is_rate_limited && !acc.is_invalid. -/
def accountAvailable (a : Account) : Bool :=
  !a.isRateLimited && !a.isInvalid

structure PickResult where
  account : Option Account
  waitMs : Int
deriving DecidableEq, Repr

/-- The account order pickStickyAccount considers: the user's accounts
after expired rate limits are cleared, most recently used first. -/
def pickOrder (accounts : List Account) (now : Int) : List Account :=
  sortByLastUsedDesc (accounts.map (clearExpiredAccount now))

/-- Case 2 of pickStickyAccount: the bounded wait for a rate-limited
sticky account with a truthy reset time. -/
def stickyWaitFor (sticky : Account) (now : Int) : Option Int :=
  if sticky.isRateLimited then
    match sticky.rateLimitResetTime with
    | some r =>
      if r ≠ 0 then
        if 0 < r - now ∧ r - now ≤ MAX_WAIT_BEFORE_ERROR_MS then some (r - now)
        else none
      else none
    | none => none
  else none

/-- AccountManager.pickStickyAccount for one user, as a pure decision
over the user's account rows at time now.  The touchAccount last_used
update on the returned account (a store side effect that does not affect
which account is chosen) is not modelled. -/
def pickStickyAccount (accounts : List Account) (now : Int) : PickResult :=
  match pickOrder accounts now with
  | [] => { account := none, waitMs := 0 }
  | currentSticky :: rest =>
    if accountAvailable currentSticky then
      { account := some currentSticky, waitMs := 0 }
    else
      match stickyWaitFor currentSticky now with
      | some waitMs => { account := none, waitMs := waitMs }
      | none =>
        match (currentSticky :: rest).find? accountAvailable with
        | some nextAccount => { account := some nextAccount, waitMs := 0 }
        | none => { account := none, waitMs := 0 }

-- Shared helper lemmas.

theorem lookupF_setF_self (fs : List (String × JVal)) (k : String) (v : JVal) :
    lookupF (setF fs k v) k = some v := by
  induction fs with
  | nil => simp [setF, lookupF]
  | cons p rest ih =>
    obtain ⟨k', v'⟩ := p
    by_cases h : k' = k
    · simp [setF, lookupF, h]
    · simp [setF, lookupF, h, ih]

theorem lookupF_setF_ne (fs : List (String × JVal)) (k k' : String) (v : JVal)
    (h : k' ≠ k) : lookupF (setF fs k v) k' = lookupF fs k' := by
  induction fs with
  | nil => simp [setF, lookupF, Ne.symm h]
  | cons p rest ih =>
    obtain ⟨k0, v0⟩ := p
    by_cases h0 : k0 = k
    · subst h0
      simp [setF, lookupF, Ne.symm h]
    · simp only [setF, if_neg h0, lookupF]
      by_cases h1 : k0 = k'
      · simp [h1]
      · simp [h1, ih]

theorem mem_keys_setF (fs : List (String × JVal)) (k k' : String) (v : JVal) :
    k' ∈ (setF fs k v).map Prod.fst → k' ∈ fs.map Prod.fst ∨ k' = k := by
  induction fs with
  | nil =>
    intro h
    simp [setF] at h
    exact Or.inr h
  | cons p rest ih =>
    obtain ⟨k0, v0⟩ := p
    intro h
    by_cases h0 : k0 = k
    · subst h0
      simp [setF] at h
      rcases h with h | h
      · exact Or.inr h
      · exact Or.inl (by simp [h])
    · simp [setF, h0] at h
      rcases h with h | h
      · exact Or.inl (by simp [h])
      · rcases ih (by simpa using h) with h' | h'
        · exact Or.inl (by simp [h'])
        · exact Or.inr h'

-- Claim C3: removeTrailingThinkingBlocks removes exactly the trailing
-- run of unsigned thinking blocks.

theorem rtbAux_spec (l : List JVal) :
    ∃ dropped, l = dropped ++ rtbAux l ∧
      (∀ b ∈ dropped, removableThinking b = true) ∧
      (rtbAux l = [] ∨
        ∃ h t, rtbAux l = h :: t ∧ removableThinking h = false) := by
  induction l with
  | nil => exact ⟨[], by simp [rtbAux]⟩
  | cons b rest ih =>
    by_cases hb : removableThinking b = true
    · obtain ⟨d, hd, hall, hhead⟩ := ih
      refine ⟨b :: d, ?_, ?_, ?_⟩
      · simp only [rtbAux, if_pos hb, List.cons_append]
        exact congrArg (b :: ·) hd
      · intro x hx
        rcases List.mem_cons.mp hx with h | h
        · exact h ▸ hb
        · exact hall x h
      · simpa only [rtbAux, if_pos hb] using hhead
    · refine ⟨[], by simp [rtbAux, hb], by simp, ?_⟩
      exact Or.inr ⟨b, rest, by simp [rtbAux, hb], by simpa using hb⟩

/-- Example blocks used by the concrete scenarios. -/
def thinkingUnsignedEx : JVal :=
  .obj [("type", .str "thinking"), ("thinking", .str "some reasoning")]

def textHiEx : JVal := .obj [("type", .str "text"), ("text", .str "hi")]

/-- C3: removeTrailingThinkingBlocks removes exactly the contiguous run
of unsigned thinking blocks at the end of a content array (every removed
block is an unsigned thinking block, and the surviving list is either
empty or ends in a block the backward scan stops at: a signed thinking
block or a non-thinking block); in particular
[thinking(unsigned), text("hi")] is unchanged and
[text("hi"), thinking(unsigned)] becomes [text("hi")]. -/
theorem removeTrailingThinkingBlocks_spec :
    (∀ content : List JVal, ∃ dropped,
        content = removeTrailingCore content ++ dropped ∧
        (∀ b ∈ dropped, isThinkingPart b = true ∧ hasValidSignature b = false) ∧
        (removeTrailingCore content = [] ∨
          ∃ last, (removeTrailingCore content).getLast? = some last ∧
            removableThinking last = false)) ∧
    removeTrailingCore [thinkingUnsignedEx, textHiEx] =
      [thinkingUnsignedEx, textHiEx] ∧
    removeTrailingCore [textHiEx, thinkingUnsignedEx] = [textHiEx] := by
  refine ⟨?_, by rfl, by rfl⟩
  intro content
  obtain ⟨d, hd, hall, hhead⟩ := rtbAux_spec content.reverse
  refine ⟨d.reverse, ?_, ?_, ?_⟩
  · have h2 : content.reverse.reverse = (d ++ rtbAux content.reverse).reverse :=
      congrArg List.reverse hd
    simpa [removeTrailingCore] using h2
  · intro b hb
    have hmem : b ∈ d := List.mem_reverse.mp hb
    have h := hall b hmem
    simp only [removableThinking, Bool.and_eq_true, Bool.not_eq_true'] at h
    exact ⟨h.1.2, h.2⟩
  · rcases hhead with h | ⟨hh, tt, heq, hrem⟩
    · left
      simp [removeTrailingCore, h]
    · right
      refine ⟨hh, ?_, hrem⟩
      simp [removeTrailingCore, heq]

-- Claim C1: unsigned thinking blocks are never forwarded upstream.

theorem sanitizeThinkingPart_valid (part : JVal)
    (hval : hasValidSignature part = true) :
    hasValidSignature (sanitizeThinkingPart part) = true := by
  by_cases ht : thoughtFlag part = true
  · simp only [hasValidSignature, ht, if_true] at hval
    cases hTS : getF part "thoughtSignature" with
    | none => rw [hTS] at hval; exact absurd hval (by simp)
    | some v =>
      rw [hTS] at hval
      cases v with
      | str s =>
        cases hT : getF part "text" with
        | none =>
          simp only [sanitizeThinkingPart, ht, eq_self_iff_true, if_true, hT, hTS]
          simpa [hasValidSignature, thoughtFlag, getF, lookupF] using hval
        | some tv =>
          simp only [sanitizeThinkingPart, ht, eq_self_iff_true, if_true, hT, hTS]
          simpa [hasValidSignature, thoughtFlag, getF, lookupF] using hval
      | null => exact absurd hval (by simp)
      | bool b => exact absurd hval (by simp)
      | num n => exact absurd hval (by simp)
      | arr xs => exact absurd hval (by simp)
      | obj fs => exact absurd hval (by simp)
  · simp only [hasValidSignature, ht, if_false, Bool.false_eq_true] at hval
    by_cases hc : (typeIs part "thinking" || (getF part "thinking").isSome) = true
    · cases hSig : getF part "signature" with
      | none => rw [hSig] at hval; exact absurd hval (by simp)
      | some v =>
        rw [hSig] at hval
        cases v with
        | str s =>
          unfold sanitizeThinkingPart
          rw [if_neg ht, if_pos hc, hSig]
          cases hTh : getF part "thinking" with
          | none =>
            simpa [hasValidSignature, thoughtFlag, getF, lookupF] using hval
          | some tv =>
            simpa [hasValidSignature, thoughtFlag, getF, lookupF] using hval
        | null => exact absurd hval (by simp)
        | bool b => exact absurd hval (by simp)
        | num n => exact absurd hval (by simp)
        | arr xs => exact absurd hval (by simp)
        | obj fs => exact absurd hval (by simp)
    · have hkeep : sanitizeThinkingPart part = part := by
        unfold sanitizeThinkingPart
        rw [if_neg ht, if_neg hc]
      rw [hkeep]
      simp only [hasValidSignature, ht, if_false, Bool.false_eq_true]
      exact hval

theorem filterContentArray_signed (parts : List JVal) :
    ∀ x ∈ filterContentArray parts, isThinkingPart x = true →
      hasValidSignature x = true := by
  induction parts with
  | nil => intro x hx; simp [filterContentArray] at hx
  | cons item rest ih =>
    intro x hx hthink
    by_cases h1 : jsTruthyObject item = true
    · by_cases h2 : isThinkingPart item = true
      · by_cases h3 : hasValidSignature item = true
        · rw [show filterContentArray (item :: rest) =
              sanitizeThinkingPart item :: filterContentArray rest from by
            simp [filterContentArray, h1, h2, h3]] at hx
          rcases List.mem_cons.mp hx with h | h
          · subst h; exact sanitizeThinkingPart_valid item h3
          · exact ih x h hthink
        · rw [show filterContentArray (item :: rest) = filterContentArray rest from by
            simp [filterContentArray, h1, h2, h3]] at hx
          exact ih x hx hthink
      · rw [show filterContentArray (item :: rest) = item :: filterContentArray rest from by
          simp [filterContentArray, h1, h2]] at hx
        rcases List.mem_cons.mp hx with h | h
        · subst h; exact absurd hthink (by simpa using h2)
        · exact ih x h hthink
    · rw [show filterContentArray (item :: rest) = item :: filterContentArray rest from by
        simp [filterContentArray, h1]] at hx
      rcases List.mem_cons.mp hx with h | h
      · subst h
        have hfalse : isThinkingPart x = false := by
          cases x with
          | arr xs => exact absurd rfl h1
          | obj fs => exact absurd rfl h1
          | null => rfl
          | bool b => rfl
          | num n => rfl
          | str s => rfl
        rw [hthink] at hfalse
        exact absurd hfalse (by simp)
      · exact ih x h hthink

theorem typeIs_of_eq {b : JVal} {t : String} (h : typeIs b t = true) :
    getF b "type" = some (.str t) := by
  unfold typeIs at h
  cases hg : getF b "type" with
  | none => rw [hg] at h; exact absurd h (by simp)
  | some v =>
    rw [hg] at h
    cases v with
    | str s =>
      have : s = t := by simpa using h
      rw [this]
    | null => exact absurd h (by simp)
    | bool b0 => exact absurd h (by simp)
    | num n => exact absurd h (by simp)
    | arr xs => exact absurd h (by simp)
    | obj fs => exact absurd h (by simp)

theorem typeIs_ne_false {b : JVal} {t t' : String} (h : typeIs b t = true)
    (hne : t' ≠ t) : typeIs b t' = false := by
  have hg := typeIs_of_eq h
  unfold typeIs
  rw [hg]
  simp only [beq_eq_false_iff_ne, ne_eq]
  exact fun hh => hne hh.symm

/-- C1: thinking blocks whose signature is missing or shorter than
MIN_SIGNATURE_LENGTH are never forwarded upstream: every thinking part
surviving filterContentArray (and hence filterUnsignedThinkingBlocks,
which applies it to every parts array) carries a valid signature, and
convertBlockToParts (the loop body of convertContentToParts, which is
their concatenation) emits no part for an unsigned thinking block.
Dropping is a pure list operation and raises no error. -/
theorem unsigned_thinking_never_forwarded :
    (∀ parts : List JVal, ∀ x ∈ filterContentArray parts,
        isThinkingPart x = true → hasValidSignature x = true) ∧
    (∀ contents : List JVal, ∀ c ∈ filterUnsignedThinkingBlocks contents,
        ∀ ps : List JVal, getF c "parts" = some (.arr ps) →
          ∀ x ∈ ps, isThinkingPart x = true → hasValidSignature x = true) ∧
    (∀ (blocks : List JVal) (claude : Bool),
        convertContentToParts (.arr blocks) claude =
          blocks.flatMap (fun b => convertBlockToParts b claude)) ∧
    (∀ (b : JVal) (claude : Bool), typeIs b "thinking" = true →
        (getF b "signature" = none ∨
          ∃ s, getF b "signature" = some (.str s) ∧ s.length < 50) →
        convertBlockToParts b claude = []) := by
  refine ⟨filterContentArray_signed, ?_, fun _ _ => rfl, ?_⟩
  · intro contents c hc ps hps x hx hthink
    rcases List.mem_map.mp hc with ⟨c0, hc0, hmap⟩
    by_cases h1 : jsTruthyObject c0 = true
    · cases c0 with
      | obj fs =>
        cases hparts : lookupF fs "parts" with
        | none =>
          rw [show c = .obj fs from by
            rw [← hmap]; simp [h1, getF, hparts]] at hps
          rw [show getF (.obj fs) "parts" = none from by simp [getF, hparts]] at hps
          exact absurd hps (by simp)
        | some pv =>
          cases pv with
          | arr parts0 =>
            rw [show c = .obj (setF fs "parts" (.arr (filterContentArray parts0)))
                from by rw [← hmap]; simp [h1, getF, hparts]] at hps
            rw [show getF (.obj (setF fs "parts" (.arr (filterContentArray parts0))))
                  "parts" = some (.arr (filterContentArray parts0)) from by
              simp [getF, lookupF_setF_self]] at hps
            have hpseq : ps = filterContentArray parts0 := by
              injection hps with h'
              injection h' with h''
              exact h''.symm
            subst hpseq
            exact filterContentArray_signed parts0 x hx hthink
          | null =>
            rw [show c = .obj fs from by rw [← hmap]; simp [h1, getF, hparts]] at hps
            rw [show getF (.obj fs) "parts" = some .null from by
              simp [getF, hparts]] at hps
            exact absurd hps (by simp)
          | bool b0 =>
            rw [show c = .obj fs from by rw [← hmap]; simp [h1, getF, hparts]] at hps
            rw [show getF (.obj fs) "parts" = some (.bool b0) from by
              simp [getF, hparts]] at hps
            exact absurd hps (by simp)
          | num n =>
            rw [show c = .obj fs from by rw [← hmap]; simp [h1, getF, hparts]] at hps
            rw [show getF (.obj fs) "parts" = some (.num n) from by
              simp [getF, hparts]] at hps
            exact absurd hps (by simp)
          | str s =>
            rw [show c = .obj fs from by rw [← hmap]; simp [h1, getF, hparts]] at hps
            rw [show getF (.obj fs) "parts" = some (.str s) from by
              simp [getF, hparts]] at hps
            exact absurd hps (by simp)
          | obj fs' =>
            rw [show c = .obj fs from by rw [← hmap]; simp [h1, getF, hparts]] at hps
            rw [show getF (.obj fs) "parts" = some (.obj fs') from by
              simp [getF, hparts]] at hps
            exact absurd hps (by simp)
      | arr xs =>
        rw [show c = .arr xs from by rw [← hmap]; simp [h1]] at hps
        exact absurd hps (by simp [getF])
      | null => exact absurd h1 (by simp [jsTruthyObject])
      | bool b0 => exact absurd h1 (by simp [jsTruthyObject])
      | num n => exact absurd h1 (by simp [jsTruthyObject])
      | str s => exact absurd h1 (by simp [jsTruthyObject])
    · rw [show c = c0 from by rw [← hmap]; simp [h1]] at hps
      cases c0 with
      | obj fs => exact absurd rfl h1
      | arr xs => exact absurd hps (by simp [getF])
      | null => exact absurd hps (by simp [getF])
      | bool b0 => exact absurd hps (by simp [getF])
      | num n => exact absurd hps (by simp [getF])
      | str s => exact absurd hps (by simp [getF])
  · intro b claude hty hsig
    have htype := typeIs_of_eq hty
    rcases hsig with hnone | ⟨s, hs, hlen⟩
    · simp [convertBlockToParts, typeIs, htype, hnone, jsTruthyOpt]
    · have hlt : ¬ (MIN_SIGNATURE_LENGTH ≤ (s.length : Int)) := by
        simp only [MIN_SIGNATURE_LENGTH]
        omega
      simp [convertBlockToParts, typeIs, htype, hs, jsTruthyOpt, jsTruthy,
        jsLengthGE, jsDotLength, hlt]

/-- Witness for C1 at a concrete unsigned thinking block. -/
theorem unsigned_thinking_never_forwarded_witness :
    typeIs thinkingUnsignedEx "thinking" = true ∧
    convertBlockToParts thinkingUnsignedEx true = [] :=
  ⟨by rfl,
   unsigned_thinking_never_forwarded.2.2.2 thinkingUnsignedEx true (by rfl)
     (Or.inl (by rfl))⟩

-- Claim C2: reorderAssistantContent groups blocks as
-- thinking → text/other → tool_use, preserving intra-group order.

/-- Membership in the thinking group of reorderAssistantContent. -/
def isThinkingGroupBlock (b : JVal) : Bool :=
  typeIs b "thinking" || typeIs b "redacted_thinking"

/-- Membership in the middle (text and other) group: not a thinking or
tool_use block, and if it is a text block it has meaningful content. -/
def keepMiddleBlock (b : JVal) : Bool :=
  !isThinkingGroupBlock b && !typeIs b "tool_use" &&
    (!typeIs b "text" || keepTextBlock b)

theorem reorderPartition_filter (l : List JVal)
    (htruthy : ∀ b ∈ l, jsTruthy b = true) :
    reorderPartition l =
      ((l.filter isThinkingGroupBlock).map sanitizeAnthropicThinkingBlock,
       l.filter keepMiddleBlock,
       l.filter (fun b => typeIs b "tool_use")) := by
  induction l with
  | nil => rfl
  | cons b rest ih =>
    have hb : jsTruthy b = true := htruthy b (List.mem_cons_self b rest)
    have ihr := ih (fun x hx => htruthy x (List.mem_cons_of_mem b hx))
    by_cases h1 : (typeIs b "thinking" || typeIs b "redacted_thinking") = true
    · have hTool : typeIs b "tool_use" = false := by
        rcases Bool.or_eq_true _ _ |>.mp h1 with h | h
        · exact typeIs_ne_false h (by decide)
        · exact typeIs_ne_false h (by decide)
      simp only [reorderPartition, hb, not_true, if_false, ite_false, ite_true,
        h1, if_true, ihr, List.filter_cons, isThinkingGroupBlock, hTool,
        keepMiddleBlock, Bool.not_true, Bool.false_and, Bool.and_false]
      simp [h1, hTool, isThinkingGroupBlock, keepMiddleBlock]
    · by_cases h2 : typeIs b "tool_use" = true
      · have hng : isThinkingGroupBlock b = false := by
          simpa [isThinkingGroupBlock] using h1
        simp only [reorderPartition, hb, h1, h2]
        simp [ihr, List.filter_cons, h2, hng, keepMiddleBlock]
      · by_cases h3 : typeIs b "text" = true
        · by_cases h4 : keepTextBlock b = true
          · have hng : isThinkingGroupBlock b = false := by
              simpa [isThinkingGroupBlock] using h1
            simp only [reorderPartition, hb, h1, h2, h3, h4]
            simp [ihr, List.filter_cons, h2, h3, h4, hng, keepMiddleBlock]
          · have hng : isThinkingGroupBlock b = false := by
              simpa [isThinkingGroupBlock] using h1
            simp only [reorderPartition, hb, h1, h2, h3, h4]
            simp [ihr, List.filter_cons, h2, h3, h4, hng, keepMiddleBlock]
        · have hng : isThinkingGroupBlock b = false := by
            simpa [isThinkingGroupBlock] using h1
          simp only [reorderPartition, hb, h1, h2, h3]
          simp [ihr, List.filter_cons, h2, h3, hng, keepMiddleBlock]

/-- C2: for content arrays with at least two truthy blocks (with string
text on truthy text fields, as the source assumes when calling .trim()),
reorderAssistantContent returns the sanitized thinking/redacted_thinking
blocks first, then text blocks with meaningful content and other block
types, then tool_use blocks, each group in input order. -/
theorem reorderAssistantContent_spec (content : List JVal)
    (hlen : 2 ≤ content.length)
    (htruthy : ∀ b ∈ content, jsTruthy b = true) :
    reorderCore content =
      (content.filter isThinkingGroupBlock).map sanitizeAnthropicThinkingBlock ++
      content.filter keepMiddleBlock ++
      content.filter (fun b => typeIs b "tool_use") := by
  cases content with
  | nil => exact absurd hlen (by simp)
  | cons a tail =>
    cases tail with
    | nil => exact absurd hlen (by simp)
    | cons b rest =>
      show (let p := reorderPartition (a :: b :: rest); p.1 ++ p.2.1 ++ p.2.2) = _
      rw [reorderPartition_filter (a :: b :: rest) htruthy]

/-- Witness for C2 at a concrete out-of-order content array. -/
theorem reorderAssistantContent_spec_witness :
    2 ≤ ([.obj [("type", .str "tool_use"), ("name", .str "t")],
          textHiEx,
          .obj [("type", .str "thinking"), ("thinking", .str "r"),
                ("signature", .str "s")]] : List JVal).length ∧
    reorderCore [.obj [("type", .str "tool_use"), ("name", .str "t")],
          textHiEx,
          .obj [("type", .str "thinking"), ("thinking", .str "r"),
                ("signature", .str "s")]] =
      (([.obj [("type", .str "tool_use"), ("name", .str "t")],
          textHiEx,
          .obj [("type", .str "thinking"), ("thinking", .str "r"),
                ("signature", .str "s")]] : List JVal).filter
          isThinkingGroupBlock).map sanitizeAnthropicThinkingBlock ++
      ([.obj [("type", .str "tool_use"), ("name", .str "t")],
          textHiEx,
          .obj [("type", .str "thinking"), ("thinking", .str "r"),
                ("signature", .str "s")]] : List JVal).filter keepMiddleBlock ++
      ([.obj [("type", .str "tool_use"), ("name", .str "t")],
          textHiEx,
          .obj [("type", .str "thinking"), ("thinking", .str "r"),
                ("signature", .str "s")]] : List JVal).filter
          (fun b => typeIs b "tool_use") :=
  ⟨by decide,
   reorderAssistantContent_spec _ (by decide) (by decide)⟩

-- Claim C4: stop-reason mapping in both converters.

/-- A function-call part as produced by the upstream API. -/
def fcPartEx : JVal :=
  .obj [("functionCall", .obj [("name", .str "get_weather"),
                               ("args", .obj [("city", .str "Paris")])])]

/-- A minimal upstream frame with the given parts and finish reason. -/
def mkFrame (parts : List JVal) (finish : Option JVal) : JVal :=
  .obj [("candidates", .arr
    [.obj ([("content", .obj [("parts", .arr parts)])] ++
      (match finish with | some f => [("finishReason", f)] | none => []))])]

def toolCallStopFrame : JVal := mkFrame [fcPartEx] (some (.str "STOP"))

def toolCallNoFinishFrame : JVal := mkFrame [fcPartEx] none

def toolCallMaxFrame : JVal := mkFrame [fcPartEx] (some (.str "MAX_TOKENS"))

theorem processFrames_append (l1 l2 : List JVal) (s : StreamState) :
    (processFrames s (l1 ++ l2)).1 = (processFrames (processFrames s l1).1 l2).1 := by
  induction l1 generalizing s with
  | nil => rfl
  | cons f rest ih =>
    simp only [List.cons_append, processFrames]
    exact ih (processFrame s f).1

theorem processPart_functionCall_stopReason (s : StreamState) (part : JVal)
    (hth : thoughtFlag part = false) (htx : getF part "text" = none)
    (hfc : jsTruthyOpt (getF part "functionCall") = true) :
    (processPart s part).1.stopReason = "tool_use" := by
  unfold processPart
  simp only [hth, htx, hfc, Option.isSome_none, Bool.false_eq_true, if_false,
    ite_true, ite_false]

/-- C4 counterexample: a frame whose single part is a function call and
whose finish reason is STOP yields stop reason end_turn, not tool_use, in
both the non-streaming converter and the streaming reassembler. -/
theorem stop_reason_toolcall_stop_counterexample :
    (candidateParts (firstCandidate (innerResponse toolCallStopFrame))).any
        partIsToolCall = true ∧
    getF (firstCandidate (innerResponse toolCallStopFrame)) "finishReason" =
      some (.str "STOP") ∧
    (convertGoogleToAnthropic toolCallStopFrame).stopReason = "end_turn" ∧
    streamStopReason [toolCallStopFrame] = "end_turn" ∧
    ("end_turn" : String) ≠ "tool_use" :=
  ⟨rfl, rfl, rfl, rfl, by decide⟩

theorem processFrame_toolNoFinish_stopReason (s : StreamState) :
    (processFrame s toolCallNoFinishFrame).1.stopReason = "tool_use" := rfl

theorem processFrame_toolStop_stopReason (s : StreamState) :
    (processFrame s toolCallStopFrame).1.stopReason = "end_turn" := rfl

theorem processFrame_toolMax_stopReason (s : StreamState) :
    (processFrame s toolCallMaxFrame).1.stopReason = "max_tokens" := rfl

/-- C4 amended: the STOP → end_turn and MAX_TOKENS → max_tokens mappings
take precedence over the presence of a function call.  Non-streaming: the
stop reason is mapStopReason of the finish reason and tool-call presence,
and a tool call forces tool_use only when the finish reason is neither
STOP nor MAX_TOKENS.  Streaming: a function-call frame sets tool_use, but
a STOP (or MAX_TOKENS) finish reason seen in the same or a later frame
overwrites it with end_turn (max_tokens). -/
theorem stop_reason_mapping_amended :
    (∀ htc : Bool, mapStopReason (some (.str "STOP")) htc = "end_turn") ∧
    (∀ htc : Bool, mapStopReason (some (.str "MAX_TOKENS")) htc = "max_tokens") ∧
    (∀ fr : Option JVal, fr ≠ some (.str "STOP") →
        fr ≠ some (.str "MAX_TOKENS") → mapStopReason fr true = "tool_use") ∧
    (∀ resp : JVal, (convertGoogleToAnthropic resp).stopReason =
        mapStopReason (getF (firstCandidate (innerResponse resp)) "finishReason")
          ((candidateParts (firstCandidate (innerResponse resp))).any
            partIsToolCall)) ∧
    (∀ pre : List JVal,
        streamStopReason (pre ++ [toolCallNoFinishFrame]) = "tool_use") ∧
    (∀ pre : List JVal,
        streamStopReason (pre ++ [toolCallStopFrame]) = "end_turn") ∧
    (∀ pre : List JVal,
        streamStopReason (pre ++ [toolCallMaxFrame]) = "max_tokens") := by
  refine ⟨fun _ => rfl, fun _ => rfl, ?_, fun _ => rfl, ?_, ?_, ?_⟩
  · intro fr h1 h2
    unfold mapStopReason
    cases fr with
    | none => rfl
    | some v =>
      cases v with
      | str s =>
        have hs1 : s ≠ "STOP" := fun h => h1 (by rw [h])
        have hs2 : s ≠ "MAX_TOKENS" := fun h => h2 (by rw [h])
        simp [hs1, hs2]
      | null => rfl
      | bool b => rfl
      | num n => rfl
      | arr xs => rfl
      | obj fs => rfl
  · intro pre
    unfold streamStopReason
    rw [processFrames_append pre [toolCallNoFinishFrame] initialStreamState]
    exact processFrame_toolNoFinish_stopReason _
  · intro pre
    unfold streamStopReason
    rw [processFrames_append pre [toolCallStopFrame] initialStreamState]
    exact processFrame_toolStop_stopReason _
  · intro pre
    unfold streamStopReason
    rw [processFrames_append pre [toolCallMaxFrame] initialStreamState]
    exact processFrame_toolMax_stopReason _

/-- Witness for the amended C4 at concrete inputs. -/
theorem stop_reason_mapping_amended_witness :
    (some (JVal.str "OTHER") : Option JVal) ≠ some (.str "STOP") ∧
    (some (JVal.str "OTHER") : Option JVal) ≠ some (.str "MAX_TOKENS") ∧
    mapStopReason (some (.str "OTHER")) true = "tool_use" ∧
    streamStopReason [toolCallNoFinishFrame] = "tool_use" :=
  ⟨by simp, by simp,
   stop_reason_mapping_amended.2.2.1 (some (.str "OTHER")) (by simp) (by simp),
   stop_reason_mapping_amended.2.2.2.2.1 []⟩

-- Claim C5: the reassembler never yields a stream with no content block
-- when the feed produced no content part.

theorem processFrame_no_parts (s : StreamState) (f : JVal)
    (h : candidateParts (firstCandidate (innerResponse f)) = []) :
    (processFrame s f).2 = [] ∧
      (processFrame s f).1.hasEmittedStart = s.hasEmittedStart := by
  unfold processFrame
  simp only [h, List.isEmpty_nil, not_true, and_false, if_false, ite_false,
    processParts]
  constructor
  · rfl
  · repeat' split
    all_goals rfl

theorem processFrames_no_parts (frames : List JVal) (s : StreamState)
    (h : ∀ f ∈ frames, candidateParts (firstCandidate (innerResponse f)) = []) :
    (processFrames s frames).2 = [] ∧
      (processFrames s frames).1.hasEmittedStart = s.hasEmittedStart := by
  induction frames generalizing s with
  | nil => exact ⟨rfl, rfl⟩
  | cons f rest ih =>
    have hf := processFrame_no_parts s f (h f (List.mem_cons_self f rest))
    have hr := ih (processFrame s f).1
      (fun x hx => h x (List.mem_cons_of_mem f hx))
    refine ⟨?_, ?_⟩
    · simp only [processFrames]
      rw [hf.1, hr.1]
      rfl
    · simp only [processFrames]
      rw [hr.2, hf.2]

/-- C5: when no frame of the feed carries any content part, the
reassembler still emits exactly message_start, content_block_start of a
text block at index 0, one content_block_delta with the
'[No response received from API]' marker, content_block_stop, a
message_delta with the resolved stop reason and usage totals, and
message_stop. -/
theorem streaming_no_content_synthesis (frames : List JVal)
    (h : ∀ f ∈ frames, candidateParts (firstCandidate (innerResponse f)) = []) :
    streamSSEResponse frames =
      [SEvent.messageStart 0 0,
       SEvent.contentBlockStart 0 (.obj [("type", .str "text"), ("text", .str "")]),
       SEvent.contentBlockDelta 0
         (.obj [("type", .str "text_delta"), ("text", .str NO_RESPONSE_TEXT)]),
       SEvent.contentBlockStop 0,
       SEvent.messageDelta (streamStopReason frames) (streamUsageTotals frames).1
         (streamUsageTotals frames).2,
       SEvent.messageStop] := by
  obtain ⟨hev, hstart⟩ := processFrames_no_parts frames initialStreamState h
  unfold streamSSEResponse
  show (processFrames initialStreamState frames).2 ++
      finishStream (processFrames initialStreamState frames).1 = _
  rw [hev]
  unfold finishStream
  rw [show (processFrames initialStreamState frames).1.hasEmittedStart = false
      from hstart]
  rfl

/-- An upstream frame with a finish reason and no content part. -/
def emptyMaxFrame : JVal := mkFrame [] (some (.str "MAX_TOKENS"))

/-- Witness for C5 at a one-frame feed with no content parts. -/
theorem streaming_no_content_synthesis_witness :
    streamSSEResponse [emptyMaxFrame] =
      [SEvent.messageStart 0 0,
       SEvent.contentBlockStart 0 (.obj [("type", .str "text"), ("text", .str "")]),
       SEvent.contentBlockDelta 0
         (.obj [("type", .str "text_delta"), ("text", .str NO_RESPONSE_TEXT)]),
       SEvent.contentBlockStop 0,
       SEvent.messageDelta "max_tokens" 0 0,
       SEvent.messageStop] :=
  streaming_no_content_synthesis [emptyMaxFrame]
    (fun f hf => by rw [List.mem_singleton.mp hf]; rfl)

-- Claim C9: sticky account selection.

theorem insertByLastUsedDesc_perm (a : Account) (l : List Account) :
    (insertByLastUsedDesc a l).Perm (a :: l) := by
  induction l with
  | nil => exact List.Perm.refl _
  | cons b rest ih =>
    by_cases h : lastUsedKey a > lastUsedKey b
    · simp only [insertByLastUsedDesc, if_pos h]
      exact List.Perm.refl _
    · simp only [insertByLastUsedDesc, if_neg h]
      exact (ih.cons b).trans (List.Perm.swap a b rest)

theorem sortByLastUsedDesc_perm (l : List Account) :
    (sortByLastUsedDesc l).Perm l := by
  induction l with
  | nil => exact List.Perm.refl _
  | cons a rest ih =>
    exact (insertByLastUsedDesc_perm a (sortByLastUsedDesc rest)).trans (ih.cons a)

theorem insertByLastUsedDesc_sorted (a : Account) (l : List Account)
    (h : List.Sorted (fun x y => lastUsedKey y ≤ lastUsedKey x) l) :
    List.Sorted (fun x y => lastUsedKey y ≤ lastUsedKey x)
      (insertByLastUsedDesc a l) := by
  induction l with
  | nil => simp [insertByLastUsedDesc]
  | cons b rest ih =>
    rw [List.sorted_cons] at h
    by_cases hab : lastUsedKey a > lastUsedKey b
    · simp only [insertByLastUsedDesc, if_pos hab]
      rw [List.sorted_cons]
      refine ⟨?_, List.sorted_cons.mpr h⟩
      intro x hx
      rcases List.mem_cons.mp hx with hx | hx
      · subst hx; omega
      · have := h.1 x hx; omega
    · simp only [insertByLastUsedDesc, if_neg hab]
      rw [List.sorted_cons]
      refine ⟨?_, ih h.2⟩
      intro x hx
      rcases List.mem_cons.mp ((insertByLastUsedDesc_perm a rest).mem_iff.mp hx)
          with hx | hx
      · subst hx; omega
      · exact h.1 x hx

theorem sortByLastUsedDesc_sorted (l : List Account) :
    List.Sorted (fun x y => lastUsedKey y ≤ lastUsedKey x)
      (sortByLastUsedDesc l) := by
  induction l with
  | nil => simp [sortByLastUsedDesc]
  | cons a rest ih => exact insertByLastUsedDesc_sorted a _ ih

/-- The concrete scenario accounts: A most recently used and
rate-limited, B available. -/
def acctA10 : Account :=
  { email := "a", lastUsed := some 2000, isRateLimited := true,
    rateLimitResetTime := some 1010000, isInvalid := false }

def acctA150 : Account :=
  { email := "a", lastUsed := some 2000, isRateLimited := true,
    rateLimitResetTime := some 1150000, isInvalid := false }

def acctB : Account :=
  { email := "b", lastUsed := some 1000, isRateLimited := false,
    rateLimitResetTime := none, isInvalid := false }

/-- C9: pickStickyAccount considers accounts most-recently-used first
(pickOrder is a descending stable sort of the cleared accounts): it
returns the sticky head when available; reports waitMs = w and no
account when the sticky is rate-limited with 0 < w = reset - now ≤
MAX_WAIT_BEFORE_ERROR_MS; falls through to the first available account
in sorted order (or no account, waitMs 0) when w exceeds the ceiling;
and with A rate-limited for another 10 s (150 s rsp.) and B available,
the call waits 10 s for A (picks B rsp.). -/
theorem pickStickyAccount_spec :
    (∀ (accounts : List Account) (now : Int),
        List.Sorted (fun x y => lastUsedKey y ≤ lastUsedKey x)
          (pickOrder accounts now) ∧
        (pickOrder accounts now).Perm
          (accounts.map (clearExpiredAccount now))) ∧
    (∀ (accounts : List Account) (now : Int) (sticky : Account)
        (rest : List Account), pickOrder accounts now = sticky :: rest →
       (accountAvailable sticky = true →
          pickStickyAccount accounts now = { account := some sticky, waitMs := 0 }) ∧
       (∀ r : Int, sticky.isRateLimited = true →
          sticky.rateLimitResetTime = some r → 0 ≤ now →
          0 < r - now → r - now ≤ MAX_WAIT_BEFORE_ERROR_MS →
          pickStickyAccount accounts now = { account := none, waitMs := r - now }) ∧
       (∀ r : Int, sticky.isRateLimited = true →
          sticky.rateLimitResetTime = some r →
          MAX_WAIT_BEFORE_ERROR_MS < r - now →
          (pickStickyAccount accounts now).account =
            (sticky :: rest).find? accountAvailable ∧
          (pickStickyAccount accounts now).waitMs = 0)) ∧
    pickStickyAccount [acctA10, acctB] 1000000 =
      { account := none, waitMs := 10000 } ∧
    pickStickyAccount [acctA150, acctB] 1000000 =
      { account := some acctB, waitMs := 0 } := by
  refine ⟨?_, ?_, by decide, by decide⟩
  · intro accounts now
    exact ⟨sortByLastUsedDesc_sorted _, sortByLastUsedDesc_perm _⟩
  · intro accounts now sticky rest hsort
    refine ⟨?_, ?_, ?_⟩
    · intro hav
      unfold pickStickyAccount
      rw [hsort]
      simp [hav]
    · intro r hrl hreset hnow hpos hle
      have hr0 : r ≠ 0 := by omega
      have hnav : accountAvailable sticky = false := by
        simp [accountAvailable, hrl]
      have hsw : stickyWaitFor sticky now = some (r - now) := by
        unfold stickyWaitFor
        rw [if_pos hrl, hreset]
        show (if r ≠ 0 then
            if 0 < r - now ∧ r - now ≤ MAX_WAIT_BEFORE_ERROR_MS then
              some (r - now)
            else none
          else none) = some (r - now)
        rw [if_pos hr0, if_pos ⟨hpos, hle⟩]
      unfold pickStickyAccount
      simp only [hsort]
      rw [if_neg (show ¬ (accountAvailable sticky = true) from by simp [hnav])]
      rw [hsw]
    · intro r hrl hreset hgt
      have hnav : accountAvailable sticky = false := by
        simp [accountAvailable, hrl]
      have hnle : ¬ (0 < r - now ∧ r - now ≤ MAX_WAIT_BEFORE_ERROR_MS) := by
        omega
      have hsw : stickyWaitFor sticky now = none := by
        unfold stickyWaitFor
        rw [if_pos hrl, hreset]
        show (if r ≠ 0 then
            if 0 < r - now ∧ r - now ≤ MAX_WAIT_BEFORE_ERROR_MS then
              some (r - now)
            else none
          else none) = none
        by_cases hr0 : r = 0
        · rw [if_neg (by simpa using hr0)]
        · rw [if_pos hr0, if_neg hnle]
      cases hfind : (sticky :: rest).find? accountAvailable with
      | none =>
        unfold pickStickyAccount
        simp only [hsort]
        rw [if_neg (show ¬ (accountAvailable sticky = true) from by simp [hnav])]
        rw [hsw, hfind]
        exact ⟨rfl, rfl⟩
      | some acc =>
        unfold pickStickyAccount
        simp only [hsort]
        rw [if_neg (show ¬ (accountAvailable sticky = true) from by simp [hnav])]
        rw [hsw, hfind]
        exact ⟨rfl, rfl⟩

/-- Witness for C9: the bounded-wait clause applied to the concrete
A (rate-limited 10 s) / B (available) scenario. -/
theorem pickStickyAccount_spec_witness :
    pickStickyAccount [acctA10, acctB] 1000000 =
      { account := none, waitMs := 10000 } :=
  ((pickStickyAccount_spec.2.1 [acctA10, acctB] 1000000 acctA10 [acctB]
      (by decide)).2.1 1010000 (by decide) (by decide) (by decide)
      (by decide) (by decide))

-- Claim C10: thinkingConfig and the maxOutputTokens floor.

/-- C10 counterexample: for a Claude thinking model with
budget_tokens = 64000 and no max_tokens, the converter sets
maxOutputTokens to the 64000 floor, which does not exceed the thinking
budget. -/
theorem thinking_budget_counterexample :
    isClaudeThinkingModelName "claude-sonnet-4-5-thinking" = true ∧
    (buildGenerationConfig "claude-sonnet-4-5-thinking" none
        (some 64000)).thinkingBudget = some 64000 ∧
    (buildGenerationConfig "claude-sonnet-4-5-thinking" none
        (some 64000)).maxOutputTokens = some 64000 ∧
    ¬ ((64000 : Int) > 64000) := by
  refine ⟨by decide, by decide, by decide, by omega⟩

theorem buildGenerationConfig_raise (model : String)
    (maxTokens budgetTokens : Option Int)
    (hm : isClaudeThinkingModelName model = true)
    (h : maxTokens = none ∨ maxTokens = some 0 ∨
        (∃ m, maxTokens = some m ∧ m ≤ effectiveThinkingBudget budgetTokens)) :
    (buildGenerationConfig model maxTokens budgetTokens).maxOutputTokens =
      some CLAUDE_THINKING_MAX_OUTPUT_TOKENS := by
  rcases h with h | h | ⟨m, h, hle⟩
  · subst h
    simp [buildGenerationConfig, hm]
  · subst h
    simp [buildGenerationConfig, hm]
  · subst h
    by_cases hz : m = 0
    · subst hz
      simp [buildGenerationConfig, hm]
    · simp [buildGenerationConfig, hm, hz, hle]

theorem buildGenerationConfig_keep (model : String)
    (budgetTokens : Option Int) (m : Int)
    (hm : isClaudeThinkingModelName model = true) (hz : m ≠ 0)
    (hgt : effectiveThinkingBudget budgetTokens < m) :
    (buildGenerationConfig model (some m) budgetTokens).maxOutputTokens =
      some m := by
  simp [buildGenerationConfig, hm, hz,
    show ¬ (m ≤ effectiveThinkingBudget budgetTokens) from by omega]

/-- C10 amended: for Claude thinking models, thinkingConfig is enabled
with budget thinking.budget_tokens (default 16000 when unspecified or
zero); maxOutputTokens is raised to the 64000 floor when max_tokens is
absent, zero, or not above the budget, and kept otherwise; the resulting
maxOutputTokens exceeds the budget only when the budget is below the
64000 floor (for budgets of 64000 or more it does not). -/
theorem thinking_budget_amended (model : String)
    (maxTokens budgetTokens : Option Int)
    (hm : isClaudeThinkingModelName model = true) :
    (buildGenerationConfig model maxTokens budgetTokens).includeThoughts = true ∧
    (buildGenerationConfig model maxTokens budgetTokens).thinkingBudget =
      some (effectiveThinkingBudget budgetTokens) ∧
    effectiveThinkingBudget none = DEFAULT_THINKING_BUDGET ∧
    ((maxTokens = none ∨ maxTokens = some 0 ∨
        (∃ m, maxTokens = some m ∧ m ≤ effectiveThinkingBudget budgetTokens)) →
      (buildGenerationConfig model maxTokens budgetTokens).maxOutputTokens =
        some CLAUDE_THINKING_MAX_OUTPUT_TOKENS) ∧
    (∀ m, maxTokens = some m → m ≠ 0 →
        effectiveThinkingBudget budgetTokens < m →
      (buildGenerationConfig model maxTokens budgetTokens).maxOutputTokens =
        some m) ∧
    (effectiveThinkingBudget budgetTokens < CLAUDE_THINKING_MAX_OUTPUT_TOKENS →
      ∀ m, (buildGenerationConfig model maxTokens budgetTokens).maxOutputTokens =
        some m → effectiveThinkingBudget budgetTokens < m) := by
  refine ⟨?_, ?_, rfl, buildGenerationConfig_raise model maxTokens budgetTokens hm,
    ?_, ?_⟩
  · simp [buildGenerationConfig, hm]
  · simp [buildGenerationConfig, hm]
  · intro m hm' hz hgt
    subst hm'
    exact buildGenerationConfig_keep model budgetTokens m hm hz hgt
  · intro hfloor m hout
    rcases maxTokens with _ | m0
    · rw [buildGenerationConfig_raise model none budgetTokens hm (Or.inl rfl)]
        at hout
      injection hout with h'
      omega
    · by_cases hz : m0 = 0
      · subst hz
        rw [buildGenerationConfig_raise model (some 0) budgetTokens hm
          (Or.inr (Or.inl rfl))] at hout
        injection hout with h'
        omega
      · by_cases hle : m0 ≤ effectiveThinkingBudget budgetTokens
        · rw [buildGenerationConfig_raise model (some m0) budgetTokens hm
            (Or.inr (Or.inr ⟨m0, rfl, hle⟩))] at hout
          injection hout with h'
          omega
        · rw [buildGenerationConfig_keep model budgetTokens m0 hm hz
            (by omega)] at hout
          injection hout with h'
          omega

/-- Witness for the amended C10 with no max_tokens and no budget. -/
theorem thinking_budget_amended_witness :
    (buildGenerationConfig "claude-sonnet-4-5-thinking" none none).includeThoughts
        = true ∧
    (buildGenerationConfig "claude-sonnet-4-5-thinking" none none).thinkingBudget
        = some (effectiveThinkingBudget none) ∧
    (buildGenerationConfig "claude-sonnet-4-5-thinking" none none).maxOutputTokens
        = some CLAUDE_THINKING_MAX_OUTPUT_TOKENS :=
  ⟨(thinking_budget_amended "claude-sonnet-4-5-thinking" none none (by decide)).1,
   (thinking_budget_amended "claude-sonnet-4-5-thinking" none none (by decide)).2.1,
   (thinking_budget_amended "claude-sonnet-4-5-thinking" none none
      (by decide)).2.2.2.1 (Or.inl rfl)⟩

-- Claim C8: text and tool-call round trips.

theorem getF_obj (fs : List (String × JVal)) (k : String) :
    getF (.obj fs) k = lookupF fs k := rfl

theorem trimChars_empty_of_eq (s : String) (h : s = "") : trimChars s = "" := by
  subst h; rfl

theorem text_part_roundtrip (s : String) :
    googlePartToBlock (.obj [("text", .str s)]) =
      some (.obj [("type", .str "text"), ("text", .str s)]) := rfl

theorem convertBlockToParts_text (b : JVal) (claude : Bool) (s : String)
    (hty : typeIs b "text" = true) (hs : getF b "text" = some (.str s))
    (htrim : trimChars s ≠ "") :
    convertBlockToParts b claude = [.obj [("text", .str s)]] := by
  have hne : s ≠ "" := fun h => htrim (trimChars_empty_of_eq s h)
  simp [convertBlockToParts, hty, hs, hne, htrim]

theorem convertBlockToParts_tool (b : JVal) (claude : Bool)
    (hty : typeIs b "tool_use" = true) :
    convertBlockToParts b claude =
      [.obj [("functionCall", .obj
        ((if claude && jsTruthyOpt (getF b "id") then
            [("name", (getF b "name").getD .null),
             ("args", if jsTruthyOpt (getF b "input") then
                 (getF b "input").getD .null else .obj []),
             ("id", (getF b "id").getD .null)]
          else
            [("name", (getF b "name").getD .null),
             ("args", if jsTruthyOpt (getF b "input") then
                 (getF b "input").getD .null else .obj [])])))]] := by
  have htype := typeIs_of_eq hty
  by_cases hid : (claude && jsTruthyOpt (getF b "id")) = true
  · simp [convertBlockToParts, typeIs, htype, hid]
  · simp [convertBlockToParts, typeIs, htype, hid]

theorem tool_block_roundtrip (b : JVal) (claude : Bool)
    (hty : typeIs b "tool_use" = true) (nm : JVal)
    (hnm : getF b "name" = some nm) (fs : List (String × JVal))
    (hin : getF b "input" = some (.obj fs)) :
    ((convertBlockToParts b claude).filterMap googlePartToBlock).map
        (fun r => (getF r "name", getF r "input")) =
      [(getF b "name", getF b "input")] ∧
    ∀ r ∈ (convertBlockToParts b claude).filterMap googlePartToBlock,
      typeIs r "tool_use" = true := by
  rw [convertBlockToParts_tool b claude hty]
  by_cases hid : (claude && jsTruthyOpt (getF b "id")) = true
  · rw [if_pos hid]
    constructor
    · simp [googlePartToBlock, getF_obj, lookupF, jsTruthyOpt, jsTruthy, hin, hnm]
    · intro r hr
      simp [googlePartToBlock, getF_obj, lookupF, jsTruthyOpt, jsTruthy] at hr
      rw [hr]
      simp [typeIs, getF_obj, lookupF]
  · rw [if_neg hid]
    constructor
    · simp [googlePartToBlock, getF_obj, lookupF, jsTruthyOpt, jsTruthy, hin, hnm]
    · intro r hr
      simp [googlePartToBlock, getF_obj, lookupF, jsTruthyOpt, jsTruthy] at hr
      rw [hr]
      simp [typeIs, getF_obj, lookupF]

/-- C8 amended: for content arrays of text blocks whose text has
non-whitespace content (non-empty alone is not enough: the outbound
converter drops whitespace-only text), and for content arrays of
tool_use blocks with a name and an object input, converting to upstream
parts and back preserves each text exactly and each tool call's name and
input exactly. -/
theorem roundtrip_preservation :
    (∀ (blocks : List JVal) (claude : Bool),
      (∀ b ∈ blocks, typeIs b "text" = true ∧
        ∃ s, getF b "text" = some (.str s) ∧ trimChars s ≠ "") →
      ((convertContentToParts (.arr blocks) claude).filterMap
          googlePartToBlock).map (fun r => getF r "text") =
        blocks.map (fun b => getF b "text")) ∧
    (∀ (blocks : List JVal) (claude : Bool),
      (∀ b ∈ blocks, typeIs b "tool_use" = true ∧
        (∃ nm, getF b "name" = some nm) ∧
        (∃ fs, getF b "input" = some (.obj fs))) →
      ((convertContentToParts (.arr blocks) claude).filterMap
          googlePartToBlock).map (fun r => (getF r "name", getF r "input")) =
        blocks.map (fun b => (getF b "name", getF b "input"))) := by
  constructor
  · intro blocks claude
    induction blocks with
    | nil => intro h; rfl
    | cons b rest ih =>
      intro h
      obtain ⟨hty, s, hs, htrim⟩ := h b (List.mem_cons_self b rest)
      have hrest := ih (fun x hx => h x (List.mem_cons_of_mem b hx))
      show ((convertBlockToParts b claude ++
          rest.flatMap (fun x => convertBlockToParts x claude)).filterMap
            googlePartToBlock).map (fun r => getF r "text") = _
      rw [convertBlockToParts_text b claude s hty hs htrim,
        List.filterMap_append, List.map_append]
      rw [show List.filterMap googlePartToBlock [JVal.obj [("text", JVal.str s)]] =
        [JVal.obj [("type", JVal.str "text"), ("text", JVal.str s)]] from rfl]
      simp only [List.map_cons, List.map_nil, List.nil_append]
      rw [show getF (JVal.obj [("type", JVal.str "text"), ("text", JVal.str s)])
          "text" = some (JVal.str s) from rfl]
      rw [show convertContentToParts (JVal.arr rest) claude =
        rest.flatMap (fun x => convertBlockToParts x claude) from rfl] at hrest
      rw [hrest, hs]
      rfl
  · intro blocks claude
    induction blocks with
    | nil => intro h; rfl
    | cons b rest ih =>
      intro h
      obtain ⟨hty, ⟨nm, hnm⟩, ⟨fs, hin⟩⟩ := h b (List.mem_cons_self b rest)
      have hrest := ih (fun x hx => h x (List.mem_cons_of_mem b hx))
      have hblock := tool_block_roundtrip b claude hty nm hnm fs hin
      show ((convertBlockToParts b claude ++
          rest.flatMap (fun x => convertBlockToParts x claude)).filterMap
            googlePartToBlock).map (fun r => (getF r "name", getF r "input")) = _
      rw [List.filterMap_append, List.map_append, hblock.1]
      simp only [List.map_cons]
      rw [show convertContentToParts (JVal.arr rest) claude =
        rest.flatMap (fun x => convertBlockToParts x claude) from rfl] at hrest
      rw [hrest]
      rfl

/-- A non-empty but whitespace-only text block. -/
def wsTextBlockEx : JVal := .obj [("type", .str "text"), ("text", .str " ")]

/-- C8 counterexample: a whitespace-only (yet non-empty) text block is
dropped on the outbound path, so the round trip does not preserve its
text. -/
theorem roundtrip_counterexample :
    typeIs wsTextBlockEx "text" = true ∧
    getF wsTextBlockEx "text" = some (.str " ") ∧ (" " : String) ≠ "" ∧
    ((convertContentToParts (.arr [wsTextBlockEx]) true).filterMap
        googlePartToBlock).map (fun r => getF r "text") ≠
      [wsTextBlockEx].map (fun b => getF b "text") := by
  refine ⟨rfl, rfl, by decide, ?_⟩
  intro h
  have h1 : (((convertContentToParts (.arr [wsTextBlockEx]) true).filterMap
      googlePartToBlock).map (fun r => getF r "text")).length = 0 := rfl
  rw [h] at h1
  have h2 : ([wsTextBlockEx].map (fun b => getF b "text")).length = 1 := rfl
  rw [h2] at h1
  exact absurd h1 (by decide)

/-- Witness for the amended C8 on concrete content. -/
theorem roundtrip_preservation_witness :
    ((convertContentToParts (.arr [textHiEx]) true).filterMap
        googlePartToBlock).map (fun r => getF r "text") =
      [textHiEx].map (fun b => getF b "text") :=
  roundtrip_preservation.1 [textHiEx] true
    (fun b hb => by
      rw [List.mem_singleton.mp hb]
      exact ⟨rfl, "hi", rfl, by decide⟩)

-- Claim C6: sanitizeSchema totality and shape.

theorem mem_keys_of_lookupF (fs : List (String × JVal)) (k : String) (v : JVal)
    (h : lookupF fs k = some v) : k ∈ fs.map Prod.fst := by
  induction fs with
  | nil => simp [lookupF] at h
  | cons p rest ih =>
    obtain ⟨k0, v0⟩ := p
    by_cases h0 : k0 = k
    · simp [h0]
    · rw [lookupF, if_neg h0] at h
      simp only [List.map_cons, List.mem_cons]
      exact Or.inr (ih h)

theorem sanitizeFields_keys (l : List (String × JVal)) :
    ∀ acc, (∀ k' ∈ acc.map Prod.fst, allowedField k' = true) →
      ∀ k' ∈ (sanitizeFields l acc).map Prod.fst, allowedField k' = true := by
  induction l with
  | nil =>
    intro acc hacc k' hk'
    rw [sanitizeFields] at hk'
    exact hacc k' hk'
  | cons p rest ih =>
    obtain ⟨key, value⟩ := p
    intro acc hacc k' hk'
    rw [sanitizeFields] at hk'
    refine ih _ ?_ k' hk'
    intro k'' hk''
    rw [sanitizeFieldStep] at hk''
    by_cases hconst : key = "const"
    · rw [if_pos hconst] at hk''
      rcases mem_keys_setF _ _ _ _ hk'' with h | h
      · exact hacc _ h
      · subst h; decide
    · rw [if_neg hconst] at hk''
      by_cases hallow : allowedField key = true
      · rw [if_neg (by simp [hallow])] at hk''
        by_cases hprop : (key = "properties" && jsTruthyObject value) = true
        · rw [if_pos hprop] at hk''
          rcases mem_keys_setF _ _ _ _ hk'' with h | h
          · exact hacc _ h
          · subst h; decide
        · rw [if_neg hprop] at hk''
          by_cases hitems : (key = "items" && jsTruthyObject value) = true
          · rw [if_pos hitems] at hk''
            rcases mem_keys_setF _ _ _ _ hk'' with h | h
            · exact hacc _ h
            · subst h; decide
          · rw [if_neg hitems] at hk''
            by_cases hobj : isObjVal value = true
            · rw [if_pos hobj] at hk''
              rcases mem_keys_setF _ _ _ _ hk'' with h | h
              · exact hacc _ h
              · subst h; exact hallow
            · rw [if_neg hobj] at hk''
              rcases mem_keys_setF _ _ _ _ hk'' with h | h
              · exact hacc _ h
              · subst h; exact hallow
      · rw [if_pos (by simpa using hallow)] at hk''
        exact hacc _ hk''

theorem sanitizeFieldStep_enum_ne (acc : List (String × JVal)) (key : String)
    (value : JVal) (hconst : key ≠ "const") (henum : key ≠ "enum") :
    lookupF (sanitizeFieldStep acc key value) "enum" = lookupF acc "enum" := by
  rw [sanitizeFieldStep]
  rw [if_neg hconst]
  by_cases hallow : allowedField key = true
  · rw [if_neg (by simp [hallow])]
    by_cases hprop : (key = "properties" && jsTruthyObject value) = true
    · rw [if_pos hprop]
      exact lookupF_setF_ne _ _ _ _ (by decide)
    · rw [if_neg hprop]
      by_cases hitems : (key = "items" && jsTruthyObject value) = true
      · rw [if_pos hitems]
        exact lookupF_setF_ne _ _ _ _ (by decide)
      · rw [if_neg hitems]
        by_cases hobj : isObjVal value = true
        · rw [if_pos hobj]
          exact lookupF_setF_ne _ _ _ _ (fun h => henum h.symm)
        · rw [if_neg hobj]
          exact lookupF_setF_ne _ _ _ _ (fun h => henum h.symm)
  · rw [if_pos (by simpa using hallow)]

theorem sanitizeFields_enum_stable (l : List (String × JVal)) :
    ∀ acc, "const" ∉ l.map Prod.fst → "enum" ∉ l.map Prod.fst →
      lookupF (sanitizeFields l acc) "enum" = lookupF acc "enum" := by
  induction l with
  | nil =>
    intro acc _ _
    rw [sanitizeFields]
  | cons p rest ih =>
    obtain ⟨key, value⟩ := p
    intro acc hconst henum
    rw [sanitizeFields]
    have hc : key ≠ "const" := fun h => hconst (by simp [h])
    have he : key ≠ "enum" := fun h => henum (by simp [h])
    rw [ih _ (fun h => hconst (by simp [h])) (fun h => henum (by simp [h]))]
    exact sanitizeFieldStep_enum_ne acc key value hc he

theorem sanitizeFields_const_enum (l : List (String × JVal)) :
    ∀ acc (v : JVal), ("const", v) ∈ l → (l.map Prod.fst).Nodup →
      "enum" ∉ l.map Prod.fst →
      lookupF (sanitizeFields l acc) "enum" = some (.arr [v]) := by
  induction l with
  | nil => intro acc v h; simp at h
  | cons p rest ih =>
    obtain ⟨key, value⟩ := p
    intro acc v hmem hnodup henum
    rw [sanitizeFields]
    rcases List.mem_cons.mp hmem with h | h
    · injection h with h1 h2
      subst h1
      subst h2
      have hnodup' : ("const" :: rest.map Prod.fst).Nodup := by
        simpa using hnodup
      have hconstrest : "const" ∉ rest.map Prod.fst :=
        (List.nodup_cons.mp hnodup').1
      have henumrest : "enum" ∉ rest.map Prod.fst := fun hh =>
        henum (by simp [hh])
      rw [sanitizeFields_enum_stable rest _ hconstrest henumrest]
      rw [sanitizeFieldStep, if_pos rfl]
      exact lookupF_setF_self _ _ _
    · have hnodup' : (key :: rest.map Prod.fst).Nodup := by
        simpa using hnodup
      have hrest := ih (sanitizeFieldStep acc key value) v h
        ((List.nodup_cons.mp hnodup').2)
        (fun hh => henum (by simp [hh]))
      exact hrest

theorem lookupF_isSome_of_truthy (fs : List (String × JVal)) (k : String)
    (h : jsTruthyOpt (lookupF fs k) = true) : (lookupF fs k).isSome = true := by
  cases hl : lookupF fs k with
  | none => rw [hl] at h; exact absurd h (by simp [jsTruthyOpt])
  | some v => rfl

/-- The sanitized field list before the empty-properties injection:
the allowlist loop followed by the type default. -/
def sanitizedBase (s : JVal) : List (String × JVal) :=
  if ¬ jsTruthyOpt (lookupF (sanitizeFields (jsEntries s) []) "type") then
    setF (sanitizeFields (jsEntries s) []) "type" (.str "object")
  else sanitizeFields (jsEntries s) []

theorem sanitizeSchema_obj_eq (s : JVal) (h : jsTruthyObject s = true) :
    sanitizeSchema s =
      (if typeResolvedObject (lookupF (sanitizedBase s) "type") &&
          propertiesMissingOrEmpty (lookupF (sanitizedBase s) "properties") then
        .obj (setF (setF (sanitizedBase s) "properties" reasonProperties)
          "required" (.arr [.str "reason"]))
      else .obj (sanitizedBase s)) := by
  rw [sanitizeSchema, if_neg (by simp [h])]
  rfl

theorem sanitizeSchema_not_obj (s : JVal) (h : jsTruthyObject s = false) :
    sanitizeSchema s = placeholderSchema := by
  rw [sanitizeSchema, if_pos (by simp [h])]

theorem sanitizedBase_keys (s : JVal) :
    ∀ k ∈ (sanitizedBase s).map Prod.fst, allowedField k = true := by
  have h1 := sanitizeFields_keys (jsEntries s) [] (by simp)
  unfold sanitizedBase
  split
  · intro k hk
    rcases mem_keys_setF _ _ _ _ hk with h | h
    · exact h1 _ h
    · subst h; decide
  · exact h1

theorem sanitizedBase_type_isSome (s : JVal) :
    (lookupF (sanitizedBase s) "type").isSome = true := by
  unfold sanitizedBase
  split
  · rw [lookupF_setF_self]
    rfl
  · next hcond =>
    exact lookupF_isSome_of_truthy _ _ (by simpa using hcond)

theorem sanitizedBase_enum (fs : List (String × JVal)) (v : JVal)
    (hmem : ("const", v) ∈ fs) (hnodup : (fs.map Prod.fst).Nodup)
    (henum : "enum" ∉ fs.map Prod.fst) :
    lookupF (sanitizedBase (.obj fs)) "enum" = some (.arr [v]) := by
  have h1 : lookupF (sanitizeFields (jsEntries (JVal.obj fs)) []) "enum" =
      some (.arr [v]) :=
    sanitizeFields_const_enum fs [] v hmem hnodup henum
  unfold sanitizedBase
  split
  · rw [lookupF_setF_ne _ _ _ _ (by decide)]
    exact h1
  · exact h1

/-- C6: sanitizeSchema is total over arbitrary values and returns, without
failing, a schema that (a) has only allow-listed keys, (b) has a type
field, (c) equals the reason placeholder for null/absent/non-object input,
(d) whenever object-typed has truthy, non-empty properties (so the reason
injection leaves properties non-empty), (e) rewrites a const field to
enum: [value], (f) defaults the type field to "object" whenever the
allowlist loop resolves no truthy type, (g) whenever the resolved type is
"object" with missing or empty properties, carries exactly the injected
placeholder: properties is the single required string property reason and
required is ["reason"], and (h) on the empty object input returns the full
reason placeholder schema. -/
theorem sanitizeSchema_spec :
    (∀ (s : JVal) (k : String) (v : JVal),
        getF (sanitizeSchema s) k = some v → allowedField k = true) ∧
    (∀ s : JVal, (getF (sanitizeSchema s) "type").isSome = true) ∧
    (∀ s : JVal, jsTruthyObject s = false → sanitizeSchema s = placeholderSchema) ∧
    (∀ s : JVal, getF (sanitizeSchema s) "type" = some (.str "object") →
        jsTruthyOpt (getF (sanitizeSchema s) "properties") = true ∧
        0 < objKeysCount ((getF (sanitizeSchema s) "properties").getD .null)) ∧
    (∀ (fs : List (String × JVal)) (v : JVal),
        ("const", v) ∈ fs → (fs.map Prod.fst).Nodup →
        "enum" ∉ fs.map Prod.fst →
        getF (sanitizeSchema (.obj fs)) "enum" = some (.arr [v])) ∧
    (∀ s : JVal, jsTruthyObject s = true →
        jsTruthyOpt (lookupF (sanitizeFields (jsEntries s) []) "type") = false →
        getF (sanitizeSchema s) "type" = some (.str "object")) ∧
    (∀ s : JVal, jsTruthyObject s = true →
        typeResolvedObject (lookupF (sanitizedBase s) "type") = true →
        propertiesMissingOrEmpty (lookupF (sanitizedBase s) "properties") = true →
        getF (sanitizeSchema s) "properties" = some reasonProperties ∧
        getF (sanitizeSchema s) "required" = some (.arr [.str "reason"])) ∧
    sanitizeSchema (.obj []) = placeholderSchema := by
  refine ⟨?_, ?_, sanitizeSchema_not_obj, ?_, ?_, ?_, ?_, ?_⟩
  · intro s k v hget
    rcases Bool.eq_false_or_eq_true (jsTruthyObject s) with hobj | hobj
    case inr =>
      rw [sanitizeSchema_not_obj s hobj] at hget
      have hk := mem_keys_of_lookupF _ _ _ (by
        rw [show placeholderSchema = JVal.obj
          [("type", .str "object"), ("properties", reasonProperties),
           ("required", .arr [.str "reason"])] from rfl, getF_obj] at hget
        exact hget)
      simp only [List.map_cons, List.map_nil, List.mem_cons,
        List.not_mem_nil, or_false] at hk
      rcases hk with h | h | h
      · subst h; decide
      · subst h; decide
      · subst h; decide
    case inl =>
      rw [sanitizeSchema_obj_eq s hobj] at hget
      split at hget
      · rw [getF_obj] at hget
        have hk := mem_keys_of_lookupF _ _ _ hget
        rcases mem_keys_setF _ _ _ _ hk with h | h
        · rcases mem_keys_setF _ _ _ _ h with h2 | h2
          · exact sanitizedBase_keys s _ h2
          · subst h2; decide
        · subst h; decide
      · rw [getF_obj] at hget
        exact sanitizedBase_keys s _ (mem_keys_of_lookupF _ _ _ hget)
  · intro s
    rcases Bool.eq_false_or_eq_true (jsTruthyObject s) with hobj | hobj
    case inr =>
      rw [sanitizeSchema_not_obj s hobj]
      rfl
    case inl =>
      rw [sanitizeSchema_obj_eq s hobj]
      split
      · rw [getF_obj]
        rw [lookupF_setF_ne _ _ _ _ (by decide),
          lookupF_setF_ne _ _ _ _ (by decide)]
        exact sanitizedBase_type_isSome s
      · rw [getF_obj]
        exact sanitizedBase_type_isSome s
  · intro s htype
    rcases Bool.eq_false_or_eq_true (jsTruthyObject s) with hobj | hobj
    case inr =>
      rw [sanitizeSchema_not_obj s hobj]
      exact ⟨rfl, by decide⟩
    case inl =>
      rw [sanitizeSchema_obj_eq s hobj] at htype ⊢
      split at htype
      · next hcond =>
        rw [if_pos hcond, getF_obj,
          lookupF_setF_ne _ _ _ _ (by decide), lookupF_setF_self]
        exact ⟨rfl, by decide⟩
      · next hcond =>
        rw [if_neg hcond]
        rw [getF_obj] at htype ⊢
        have hto : typeResolvedObject (lookupF (sanitizedBase s) "type") = true := by
          rw [htype]
          rfl
        have hpm : propertiesMissingOrEmpty
            (lookupF (sanitizedBase s) "properties") = false := by
          rcases Bool.eq_false_or_eq_true (propertiesMissingOrEmpty
            (lookupF (sanitizedBase s) "properties")) with h | h
          · exact absurd (by rw [hto, h]; rfl) hcond
          · exact h
        simp only [propertiesMissingOrEmpty, Bool.or_eq_false_iff,
          Bool.not_eq_false', beq_eq_false_iff_ne, ne_eq] at hpm
        exact ⟨hpm.1, Nat.pos_of_ne_zero hpm.2⟩
  · intro fs v hmem hnodup henum
    have hobj : jsTruthyObject (JVal.obj fs) = true := rfl
    rw [sanitizeSchema_obj_eq _ hobj]
    split
    · rw [getF_obj, lookupF_setF_ne _ _ _ _ (by decide),
        lookupF_setF_ne _ _ _ _ (by decide)]
      exact sanitizedBase_enum fs v hmem hnodup henum
    · rw [getF_obj]
      exact sanitizedBase_enum fs v hmem hnodup henum
  · intro s hobj hnotype
    have hbase : lookupF (sanitizedBase s) "type" = some (.str "object") := by
      unfold sanitizedBase
      rw [if_pos (by simp [hnotype])]
      exact lookupF_setF_self _ _ _
    rw [sanitizeSchema_obj_eq s hobj]
    split
    · rw [getF_obj, lookupF_setF_ne _ _ _ _ (by decide),
        lookupF_setF_ne _ _ _ _ (by decide), hbase]
    · rw [getF_obj, hbase]
  · intro s hobj hto hpm
    rw [sanitizeSchema_obj_eq s hobj, if_pos (by rw [hto, hpm]; rfl)]
    constructor
    · rw [getF_obj, lookupF_setF_ne _ _ _ _ (by decide), lookupF_setF_self]
    · rw [getF_obj, lookupF_setF_self]
  · have hsb : sanitizedBase (.obj []) = [("type", .str "object")] := by
      unfold sanitizedBase
      rw [show jsEntries (.obj []) = ([] : List (String × JVal)) from rfl,
        sanitizeFields]
      rfl
    rw [sanitizeSchema_obj_eq (.obj []) (by rfl), hsb]
    rfl

/-- Witness for C6 at a bare const schema. -/
theorem sanitizeSchema_spec_witness :
    getF (sanitizeSchema (.obj [("const", .num 3)])) "enum" =
      some (.arr [.num 3]) :=
  sanitizeSchema_spec.2.2.2.2.1 [("const", .num 3)] (.num 3) (by simp)
    (by simp) (by simp)

-- Claim C7: idempotence of the assistant normalization pipeline.

/-- The signature field, when present, is a string (the source reads
block.signature.length, which is only a character count on strings). -/
def sigIsStringOrAbsent (b : JVal) : Bool :=
  match getF b "signature" with
  | some (.str _) => true
  | some _ => false
  | none => true

/-- Well-formed assistant content blocks, on which the pipeline is
idempotent: truthy objects that are not Gemini thought parts, whose
thinking field (when present) comes with type 'thinking', whose text
blocks carry meaningful string text, whose signature field (when present)
is a string, and whose redacted_thinking blocks carry no signature
field. -/
def goodBlock (b : JVal) : Bool :=
  isObjVal b && !thoughtFlag b &&
  (!(getF b "thinking").isSome || typeIs b "thinking") &&
  (!typeIs b "text" || keepTextBlock b) &&
  sigIsStringOrAbsent b &&
  (!typeIs b "redacted_thinking" || !(getF b "signature").isSome)

theorem good_obj {b : JVal} (h : goodBlock b = true) : isObjVal b = true := by
  simp only [goodBlock, Bool.and_eq_true] at h
  exact h.1.1.1.1.1

theorem good_truthy {b : JVal} (h : goodBlock b = true) : jsTruthy b = true := by
  have := good_obj h
  cases b <;> simp_all [isObjVal, jsTruthy]

theorem good_truthyObject {b : JVal} (h : goodBlock b = true) :
    jsTruthyObject b = true := by
  have := good_obj h
  cases b <;> simp_all [isObjVal, jsTruthyObject]

theorem good_not_thought {b : JVal} (h : goodBlock b = true) :
    thoughtFlag b = false := by
  simp only [goodBlock, Bool.and_eq_true, Bool.not_eq_true'] at h
  exact h.1.1.1.1.2

theorem good_thinking_typed {b : JVal} (h : goodBlock b = true)
    (ht : (getF b "thinking").isSome = true) : typeIs b "thinking" = true := by
  simp only [goodBlock, Bool.and_eq_true, Bool.or_eq_true, Bool.not_eq_true'] at h
  rcases h.1.1.1.2 with h1 | h1
  · rw [ht] at h1; exact absurd h1 (by decide)
  · exact h1

theorem good_text {b : JVal} (h : goodBlock b = true)
    (ht : typeIs b "text" = true) : keepTextBlock b = true := by
  simp only [goodBlock, Bool.and_eq_true, Bool.or_eq_true, Bool.not_eq_true'] at h
  rcases h.1.1.2 with h1 | h1
  · rw [ht] at h1; exact absurd h1 (by decide)
  · exact h1

theorem good_sig_str {b : JVal} (h : goodBlock b = true) {v : JVal}
    (hv : getF b "signature" = some v) : ∃ s, v = .str s := by
  simp only [goodBlock, Bool.and_eq_true] at h
  have h5 := h.1.2
  unfold sigIsStringOrAbsent at h5
  rw [hv] at h5
  cases v with
  | str s => exact ⟨s, rfl⟩
  | null => exact absurd h5 Bool.false_ne_true
  | bool b0 => exact absurd h5 Bool.false_ne_true
  | num n => exact absurd h5 Bool.false_ne_true
  | arr l => exact absurd h5 Bool.false_ne_true
  | obj fs => exact absurd h5 Bool.false_ne_true

theorem good_redacted_nosig {b : JVal} (h : goodBlock b = true)
    (hr : typeIs b "redacted_thinking" = true) : getF b "signature" = none := by
  simp only [goodBlock, Bool.and_eq_true, Bool.or_eq_true, Bool.not_eq_true'] at h
  rcases h.2 with h1 | h1
  · rw [hr] at h1; exact absurd h1 (by decide)
  · cases hv : getF b "signature" with
    | none => rfl
    | some v => rw [hv] at h1; exact absurd h1.symm Bool.false_ne_true

/-- The normal form sanitizeAnthropicThinkingBlock gives a truthy
'thinking'-typed block. -/
def thinkingNormal (tk sg : Option JVal) : JVal :=
  .obj ([("type", .str "thinking")] ++
    (match tk with | some t => [("thinking", t)] | none => []) ++
    (match sg with | some s => [("signature", s)] | none => []))

/-- The normal form sanitizeAnthropicThinkingBlock gives a truthy
'redacted_thinking'-typed block. -/
def redactedNormal (d : Option JVal) : JVal :=
  .obj ([("type", .str "redacted_thinking")] ++
    (match d with | some v => [("data", v)] | none => []))

theorem sanitize_thinking_eq (b : JVal) (hb : jsTruthy b = true)
    (ht : typeIs b "thinking" = true) :
    sanitizeAnthropicThinkingBlock b =
      thinkingNormal (getF b "thinking") (getF b "signature") := by
  unfold sanitizeAnthropicThinkingBlock thinkingNormal
  rw [if_neg (fun hc => hc hb), if_pos ht]

theorem sanitize_redacted_eq (b : JVal) (hb : jsTruthy b = true)
    (hnt : typeIs b "thinking" = false) (hr : typeIs b "redacted_thinking" = true) :
    sanitizeAnthropicThinkingBlock b = redactedNormal (getF b "data") := by
  unfold sanitizeAnthropicThinkingBlock redactedNormal
  rw [if_neg (fun hc => hc hb), if_neg (by simp [hnt]), if_pos hr]

theorem thinkingNormal_truthy (tk sg : Option JVal) :
    jsTruthy (thinkingNormal tk sg) = true := by
  cases tk <;> cases sg <;> rfl

theorem thinkingNormal_type (tk sg : Option JVal) :
    typeIs (thinkingNormal tk sg) "thinking" = true := by
  cases tk <;> cases sg <;> rfl

theorem thinkingNormal_getF_thinking (tk sg : Option JVal) :
    getF (thinkingNormal tk sg) "thinking" = tk := by
  cases tk <;> cases sg <;> rfl

theorem thinkingNormal_getF_signature (tk sg : Option JVal) :
    getF (thinkingNormal tk sg) "signature" = sg := by
  cases tk <;> cases sg <;> rfl

theorem sanitize_thinkingNormal (tk sg : Option JVal) :
    sanitizeAnthropicThinkingBlock (thinkingNormal tk sg) = thinkingNormal tk sg := by
  rw [sanitize_thinking_eq _ (thinkingNormal_truthy tk sg) (thinkingNormal_type tk sg),
    thinkingNormal_getF_thinking, thinkingNormal_getF_signature]

theorem goodBlock_thinkingNormal (tk : Option JVal) (s : String) :
    goodBlock (thinkingNormal tk (some (.str s))) = true := by
  cases tk <;> rfl

theorem hasValid_thinkingNormal (tk : Option JVal) (s : String)
    (h : (s.length : Int) ≥ MIN_SIGNATURE_LENGTH) :
    hasValidSignature (thinkingNormal tk (some (.str s))) = true := by
  cases tk <;> exact decide_eq_true h

theorem redactedNormal_truthy (d : Option JVal) :
    jsTruthy (redactedNormal d) = true := by cases d <;> rfl

theorem redactedNormal_type (d : Option JVal) :
    typeIs (redactedNormal d) "redacted_thinking" = true := by cases d <;> rfl

theorem redactedNormal_not_thinking (d : Option JVal) :
    typeIs (redactedNormal d) "thinking" = false := by cases d <;> rfl

theorem redactedNormal_getF_data (d : Option JVal) :
    getF (redactedNormal d) "data" = d := by cases d <;> rfl

theorem sanitize_redactedNormal (d : Option JVal) :
    sanitizeAnthropicThinkingBlock (redactedNormal d) = redactedNormal d := by
  rw [sanitize_redacted_eq _ (redactedNormal_truthy d) (redactedNormal_not_thinking d)
    (redactedNormal_type d), redactedNormal_getF_data]

theorem goodBlock_redactedNormal (d : Option JVal) :
    goodBlock (redactedNormal d) = true := by cases d <;> rfl

theorem group_not_tool {b : JVal} (h : isThinkingGroupBlock b = true) :
    typeIs b "tool_use" = false := by
  simp only [isThinkingGroupBlock, Bool.or_eq_true] at h
  rcases h with h | h
  · exact typeIs_ne_false h (by decide)
  · exact typeIs_ne_false h (by decide)

theorem group_not_middle {b : JVal} (h : isThinkingGroupBlock b = true) :
    keepMiddleBlock b = false := by
  simp [keepMiddleBlock, h]

theorem tool_not_group {b : JVal} (h : typeIs b "tool_use" = true) :
    isThinkingGroupBlock b = false := by
  simp [isThinkingGroupBlock,
    typeIs_ne_false h (by decide : "thinking" ≠ "tool_use"),
    typeIs_ne_false h (by decide : "redacted_thinking" ≠ "tool_use")]

theorem tool_not_middle {b : JVal} (h : typeIs b "tool_use" = true) :
    keepMiddleBlock b = false := by
  simp [keepMiddleBlock, h]

theorem keepMiddle_not_group {b : JVal} (h : keepMiddleBlock b = true) :
    isThinkingGroupBlock b = false ∧ typeIs b "tool_use" = false := by
  simp only [keepMiddleBlock, Bool.and_eq_true, Bool.not_eq_true'] at h
  exact ⟨h.1.1, h.1.2⟩

/-- Every well-formed block falls into one of the three reorder groups
(nothing is dropped by the partition). -/
theorem good_classify {b : JVal} (h : goodBlock b = true) :
    isThinkingGroupBlock b = true ∨ keepMiddleBlock b = true ∨
      typeIs b "tool_use" = true := by
  by_cases h1 : isThinkingGroupBlock b = true
  · exact Or.inl h1
  · by_cases h2 : typeIs b "tool_use" = true
    · exact Or.inr (Or.inr h2)
    · refine Or.inr (Or.inl ?_)
      have h1f : isThinkingGroupBlock b = false := by simpa using h1
      have h2f : typeIs b "tool_use" = false := by simpa using h2
      by_cases h3 : typeIs b "text" = true
      · simp [keepMiddleBlock, h1f, h2f, good_text h h3]
      · have h3f : typeIs b "text" = false := by simpa using h3
        simp [keepMiddleBlock, h1f, h2f, h3f]

theorem not_removable_of_valid {b : JVal} (hv : hasValidSignature b = true) :
    removableThinking b = false := by
  simp [removableThinking, hv]

theorem not_removable_of_not_group {b : JVal} (h : goodBlock b = true)
    (hg : isThinkingGroupBlock b = false) : removableThinking b = false := by
  simp only [isThinkingGroupBlock, Bool.or_eq_false_iff] at hg
  have h3 : (getF b "thinking").isSome = false := by
    cases hh : (getF b "thinking").isSome
    · rfl
    · have := good_thinking_typed h hh
      rw [this] at hg
      exact absurd hg.1.symm Bool.false_ne_true
  simp [removableThinking, isThinkingPart, hg.1, hg.2, h3, good_not_thought h]

theorem removable_of_good_redacted {b : JVal} (h : goodBlock b = true)
    (hr : typeIs b "redacted_thinking" = true) : removableThinking b = true := by
  have hsig := good_redacted_nosig h hr
  have hth := good_not_thought h
  have hval : hasValidSignature b = false := by
    simp [hasValidSignature, hth, hsig]
  simp [removableThinking, isThinkingPart, hr, hval, good_truthyObject h]

theorem hasValid_decomp (x : JVal) (hth : thoughtFlag x = false)
    (h : hasValidSignature x = true) :
    ∃ s, getF x "signature" = some (.str s) ∧
      (s.length : Int) ≥ MIN_SIGNATURE_LENGTH := by
  unfold hasValidSignature at h
  rw [hth] at h
  simp only [Bool.false_eq_true, if_false] at h
  cases hsig : getF x "signature" with
  | none => rw [hsig] at h; exact absurd h Bool.false_ne_true
  | some v =>
    rw [hsig] at h
    cases v with
    | str s => exact ⟨s, rfl, of_decide_eq_true h⟩
    | null => exact absurd h Bool.false_ne_true
    | bool b0 => exact absurd h Bool.false_ne_true
    | num n => exact absurd h Bool.false_ne_true
    | arr l => exact absurd h Bool.false_ne_true
    | obj fs => exact absurd h Bool.false_ne_true

theorem str_ne_empty_of_len {s : String} (h : (s.length : Int) ≥ 50) :
    (s != "") = true := by
  have h0 : s ≠ "" := by
    intro he
    rw [he] at h
    exact absurd h (by decide)
  simpa using h0

/-- Elements the restore pass keeps are well formed, and its
'thinking'-typed survivors carry a valid signature and are fixed points of
sanitizeAnthropicThinkingBlock. -/
theorem restoreCore_post (xs : List JVal) (hg : ∀ b ∈ xs, goodBlock b = true) :
    ∀ x ∈ restoreCore xs, goodBlock x = true ∧
      (typeIs x "thinking" = true → hasValidSignature x = true ∧
        sanitizeAnthropicThinkingBlock x = x) := by
  induction xs with
  | nil => intro x hx; exact absurd hx (by simp [restoreCore])
  | cons b rest ih =>
    have hb := hg b (List.mem_cons_self b rest)
    have ihr := ih (fun x hx => hg x (List.mem_cons_of_mem b hx))
    intro x hx
    by_cases hcond : (! jsTruthy b || ! typeIs b "thinking") = true
    · rw [restoreCore, if_pos hcond] at hx
      rcases List.mem_cons.mp hx with heq | hmem
      · subst heq
        refine ⟨hb, fun hth => ?_⟩
        rw [good_truthy hb, hth] at hcond
        exact absurd hcond (by decide)
      · exact ihr x hmem
    · have hcondf : (! jsTruthy b || ! typeIs b "thinking") = false := by
        simpa using hcond
      simp only [Bool.or_eq_false_iff, Bool.not_eq_false'] at hcondf
      obtain ⟨htr, hth⟩ := hcondf
      rw [restoreCore, if_neg (by simp [htr, hth])] at hx
      by_cases hs : (jsTruthyOpt (getF b "signature") &&
          jsLengthGE ((getF b "signature").getD .null) MIN_SIGNATURE_LENGTH) = true
      · rw [if_pos hs] at hx
        rcases List.mem_cons.mp hx with heq | hmem
        · subst heq
          obtain ⟨s, hsig, hlen⟩ :
              ∃ s, getF b "signature" = some (.str s) ∧
                (s.length : Int) ≥ MIN_SIGNATURE_LENGTH := by
            cases hO : getF b "signature" with
            | none =>
              rw [hO] at hs
              exact absurd hs Bool.false_ne_true
            | some v =>
              obtain ⟨s, rfl⟩ := good_sig_str hb hO
              rw [hO] at hs
              simp only [jsTruthyOpt, jsTruthy, Option.getD_some, jsLengthGE,
                jsDotLength, Bool.and_eq_true, decide_eq_true_eq] at hs
              exact ⟨s, rfl, hs.2⟩
          rw [sanitize_thinking_eq b htr hth, hsig]
          exact ⟨goodBlock_thinkingNormal _ s,
            fun _ => ⟨hasValid_thinkingNormal _ s hlen, sanitize_thinkingNormal _ _⟩⟩
        · exact ihr x hmem
      · rw [if_neg hs] at hx
        exact ihr x hx

/-- The restore pass is the identity on lists of well-formed blocks whose
'thinking'-typed members have valid signatures and are sanitize-fixed. -/
theorem restoreCore_fixed (ys : List JVal)
    (h : ∀ x ∈ ys, goodBlock x = true ∧ (typeIs x "thinking" = true →
      hasValidSignature x = true ∧ sanitizeAnthropicThinkingBlock x = x)) :
    restoreCore ys = ys := by
  induction ys with
  | nil => rfl
  | cons b rest ih =>
    have hb := h b (List.mem_cons_self b rest)
    have ihr := ih (fun x hx => h x (List.mem_cons_of_mem b hx))
    by_cases ht : typeIs b "thinking" = true
    · obtain ⟨hval, hfix⟩ := hb.2 ht
      have htr := good_truthy hb.1
      have hthf := good_not_thought hb.1
      obtain ⟨s, hsig, hlen⟩ := hasValid_decomp b hthf hval
      have hcond2 : (jsTruthyOpt (getF b "signature") &&
          jsLengthGE ((getF b "signature").getD .null) MIN_SIGNATURE_LENGTH) = true := by
        rw [hsig]
        simp only [jsTruthyOpt, jsTruthy, Option.getD_some, jsLengthGE,
          jsDotLength, Bool.and_eq_true, decide_eq_true_eq]
        exact ⟨by simpa using str_ne_empty_of_len hlen, hlen⟩
      rw [restoreCore, if_neg (by simp [htr, ht]), if_pos hcond2, hfix, ihr]
    · have htf : typeIs b "thinking" = false := by simpa using ht
      rw [restoreCore, if_pos (by simp [htf]), ihr]

/-- The trailing-strip pass keeps a list ending in a non-removable block
unchanged. -/
theorem removeTrailingCore_snoc (zs : List JVal) (a : JVal)
    (h : removableThinking a = false) :
    removeTrailingCore (zs ++ [a]) = zs ++ [a] := by
  unfold removeTrailingCore
  rw [List.reverse_append]
  simp only [List.reverse_cons, List.reverse_nil, List.nil_append,
    List.singleton_append]
  rw [rtbAux, h]
  simp

theorem removeTrailingCore_eq_self (ys : List JVal)
    (h : ys = [] ∨ ∃ zs a, ys = zs ++ [a] ∧ removableThinking a = false) :
    removeTrailingCore ys = ys := by
  rcases h with rfl | ⟨zs, a, rfl, hnr⟩
  · rfl
  · exact removeTrailingCore_snoc zs a hnr

theorem mem_removeTrailingCore {x : JVal} {ys : List JVal}
    (h : x ∈ removeTrailingCore ys) : x ∈ ys := by
  obtain ⟨d, hd, -, -⟩ := rtbAux_spec ys.reverse
  have h1 : x ∈ rtbAux ys.reverse := by
    simpa [removeTrailingCore] using h
  have h2 : x ∈ ys.reverse := by
    rw [hd]
    exact List.mem_append.mpr (Or.inr h1)
  simpa using h2

/-- The trailing-strip output is empty or ends in a non-removable block. -/
theorem removeTrailingCore_last (ys : List JVal) :
    removeTrailingCore ys = [] ∨
      ∃ zs a, removeTrailingCore ys = zs ++ [a] ∧
        removableThinking a = false := by
  obtain ⟨d, hd, hall, hhead⟩ := rtbAux_spec ys.reverse
  rcases hhead with h | ⟨a, tl, heq, hrem⟩
  · left
    simp [removeTrailingCore, h]
  · right
    exact ⟨tl.reverse, a, by simp [removeTrailingCore, heq], hrem⟩

theorem map_fixed (f : JVal → JVal) :
    ∀ (l : List JVal), (∀ x ∈ l, f x = x) → l.map f = l
  | [], _ => rfl
  | x :: xs, h => by
    rw [List.map_cons, h x (List.mem_cons_self x xs),
      map_fixed f xs (fun y hy => h y (List.mem_cons_of_mem x hy))]

/-- reorderAssistantContent is the identity on lists that are already
grouped as sanitize-fixed thinking blocks, then middle blocks, then
tool_use blocks. -/
theorem reorderCore_grouped (A B C : List JVal)
    (hA : ∀ x ∈ A, isThinkingGroupBlock x = true ∧
      sanitizeAnthropicThinkingBlock x = x ∧ jsTruthy x = true)
    (hB : ∀ x ∈ B, keepMiddleBlock x = true ∧ jsTruthy x = true)
    (hC : ∀ x ∈ C, typeIs x "tool_use" = true ∧ jsTruthy x = true) :
    reorderCore (A ++ B ++ C) = A ++ B ++ C := by
  have hfA1 : A.filter isThinkingGroupBlock = A :=
    List.filter_eq_self.mpr (fun x hx => (hA x hx).1)
  have hfA2 : A.filter keepMiddleBlock = [] :=
    List.filter_eq_nil_iff.mpr
      (fun x hx => by simp [group_not_middle (hA x hx).1])
  have hfA3 : A.filter (fun bb => typeIs bb "tool_use") = [] :=
    List.filter_eq_nil_iff.mpr
      (fun x hx => by simp [group_not_tool (hA x hx).1])
  have hfB1 : B.filter isThinkingGroupBlock = [] :=
    List.filter_eq_nil_iff.mpr
      (fun x hx => by simp [(keepMiddle_not_group (hB x hx).1).1])
  have hfB2 : B.filter keepMiddleBlock = B :=
    List.filter_eq_self.mpr (fun x hx => (hB x hx).1)
  have hfB3 : B.filter (fun bb => typeIs bb "tool_use") = [] :=
    List.filter_eq_nil_iff.mpr
      (fun x hx => by simp [(keepMiddle_not_group (hB x hx).1).2])
  have hfC1 : C.filter isThinkingGroupBlock = [] :=
    List.filter_eq_nil_iff.mpr
      (fun x hx => by simp [tool_not_group (hC x hx).1])
  have hfC2 : C.filter keepMiddleBlock = [] :=
    List.filter_eq_nil_iff.mpr
      (fun x hx => by simp [tool_not_middle (hC x hx).1])
  have hfC3 : C.filter (fun bb => typeIs bb "tool_use") = C :=
    List.filter_eq_self.mpr (fun x hx => (hC x hx).1)
  have hmap : A.map sanitizeAnthropicThinkingBlock = A :=
    map_fixed _ A (fun x hx => (hA x hx).2.1)
  cases hl : A ++ B ++ C with
  | nil => rfl
  | cons x xs =>
    cases xs with
    | nil =>
      have hx : x ∈ A ++ B ++ C := by
        rw [hl]
        exact List.mem_singleton_self x
      rcases List.mem_append.mp hx with hAB | hxC
      · rcases List.mem_append.mp hAB with hxA | hxB
        · obtain ⟨hg1, hfix, htr⟩ := hA x hxA
          show (if jsTruthy x &&
              (typeIs x "thinking" || typeIs x "redacted_thinking") then
            [sanitizeAnthropicThinkingBlock x] else [x]) = [x]
          have hcond : (jsTruthy x &&
              (typeIs x "thinking" || typeIs x "redacted_thinking")) = true := by
            rw [htr]
            simpa [isThinkingGroupBlock] using hg1
          rw [hcond]
          simp [hfix]
        · have hg1 := (keepMiddle_not_group (hB x hxB).1).1
          show (if jsTruthy x &&
              (typeIs x "thinking" || typeIs x "redacted_thinking") then
            [sanitizeAnthropicThinkingBlock x] else [x]) = [x]
          have hcond : (jsTruthy x &&
              (typeIs x "thinking" || typeIs x "redacted_thinking")) = false := by
            have : (typeIs x "thinking" || typeIs x "redacted_thinking") = false := by
              simpa [isThinkingGroupBlock] using hg1
            simp [this]
          rw [hcond]
          simp
      · have hg1 := tool_not_group (hC x hxC).1
        show (if jsTruthy x &&
            (typeIs x "thinking" || typeIs x "redacted_thinking") then
          [sanitizeAnthropicThinkingBlock x] else [x]) = [x]
        have hcond : (jsTruthy x &&
            (typeIs x "thinking" || typeIs x "redacted_thinking")) = false := by
          have : (typeIs x "thinking" || typeIs x "redacted_thinking") = false := by
            simpa [isThinkingGroupBlock] using hg1
          simp [this]
        rw [hcond]
        simp
    | cons y ys =>
      have htruthy : ∀ bb ∈ x :: y :: ys, jsTruthy bb = true := by
        intro bb hbb
        rw [← hl] at hbb
        rcases List.mem_append.mp hbb with hh | hh
        · rcases List.mem_append.mp hh with hg | hg
          · exact (hA bb hg).2.2
          · exact (hB bb hg).2
        · exact (hC bb hh).2
      have hstep : reorderCore (x :: y :: ys) =
          ((x :: y :: ys).filter isThinkingGroupBlock).map
            sanitizeAnthropicThinkingBlock ++
          (x :: y :: ys).filter keepMiddleBlock ++
          (x :: y :: ys).filter (fun bb => typeIs bb "tool_use") := by
        show (let p := reorderPartition (x :: y :: ys);
          p.1 ++ p.2.1 ++ p.2.2) = _
        rw [reorderPartition_filter _ htruthy]
      rw [hstep, ← hl]
      simp only [List.filter_append]
      rw [hfA1, hfB1, hfC1, hfA2, hfB2, hfC2, hfA3, hfB3, hfC3]
      simp only [List.append_nil, List.nil_append]
      rw [hmap]

/-- The full pipeline is the identity on already-grouped content whose
blocks are well formed and whose last block is not removable. -/
theorem grouped_pipeline_fixed (A B C : List JVal)
    (hA : ∀ x ∈ A, isThinkingGroupBlock x = true ∧
      sanitizeAnthropicThinkingBlock x = x ∧ goodBlock x = true ∧
      (typeIs x "thinking" = true → hasValidSignature x = true))
    (hB : ∀ x ∈ B, keepMiddleBlock x = true ∧ goodBlock x = true ∧
      (typeIs x "thinking" = true → hasValidSignature x = true ∧
        sanitizeAnthropicThinkingBlock x = x))
    (hC : ∀ x ∈ C, typeIs x "tool_use" = true ∧ goodBlock x = true)
    (hlast : A ++ B ++ C = [] ∨ ∃ zs a, A ++ B ++ C = zs ++ [a] ∧
      removableThinking a = false) :
    assistantPipeline (A ++ B ++ C) = A ++ B ++ C := by
  have hall : ∀ x ∈ A ++ B ++ C, goodBlock x = true ∧
      (typeIs x "thinking" = true → hasValidSignature x = true ∧
        sanitizeAnthropicThinkingBlock x = x) := by
    intro x hx
    rcases List.mem_append.mp hx with hAB | hxC
    · rcases List.mem_append.mp hAB with hxA | hxB
      · obtain ⟨hg1, hfix, hgood, hval⟩ := hA x hxA
        exact ⟨hgood, fun ht => ⟨hval ht, hfix⟩⟩
      · exact ⟨(hB x hxB).2.1, (hB x hxB).2.2⟩
    · obtain ⟨htool, hgood⟩ := hC x hxC
      refine ⟨hgood, fun ht => ?_⟩
      have hnt := typeIs_ne_false htool (by decide : "thinking" ≠ "tool_use")
      rw [hnt] at ht
      exact absurd ht Bool.false_ne_true
  show reorderCore (removeTrailingCore (restoreCore (A ++ B ++ C))) =
    A ++ B ++ C
  rw [restoreCore_fixed _ hall, removeTrailingCore_eq_self _ hlast]
  exact reorderCore_grouped A B C
    (fun x hx => ⟨(hA x hx).1, (hA x hx).2.1, good_truthy (hA x hx).2.2.1⟩)
    (fun x hx => ⟨(hB x hx).1, good_truthy (hB x hx).2.1⟩)
    (fun x hx => ⟨(hC x hx).1, good_truthy (hC x hx).2⟩)

/-- The grouped output of the reorder stage is empty or ends in a
non-removable block, given the strip-stage postconditions. -/
theorem grouped_last (L : List JVal)
    (hpost : ∀ x ∈ L, goodBlock x = true ∧ (typeIs x "thinking" = true →
      hasValidSignature x = true ∧ sanitizeAnthropicThinkingBlock x = x))
    (hlast : L = [] ∨ ∃ zs a, L = zs ++ [a] ∧ removableThinking a = false) :
    (L.filter isThinkingGroupBlock).map sanitizeAnthropicThinkingBlock ++
      L.filter keepMiddleBlock ++
      L.filter (fun x => typeIs x "tool_use") = [] ∨
    ∃ zs a,
      (L.filter isThinkingGroupBlock).map sanitizeAnthropicThinkingBlock ++
        L.filter keepMiddleBlock ++
        L.filter (fun x => typeIs x "tool_use") = zs ++ [a] ∧
      removableThinking a = false := by
  rcases List.eq_nil_or_concat (L.filter (fun x => typeIs x "tool_use")) with
    hC | ⟨C0, c, hCeq⟩
  · rcases List.eq_nil_or_concat (L.filter keepMiddleBlock) with
      hB | ⟨B0, m, hBeq⟩
    · have hallg1 : ∀ x ∈ L, isThinkingGroupBlock x = true := by
        intro x hxL
        rcases good_classify (hpost x hxL).1 with h | h | h
        · exact h
        · exfalso
          have hmem : x ∈ L.filter keepMiddleBlock :=
            List.mem_filter.mpr ⟨hxL, h⟩
          rw [hB] at hmem
          exact absurd hmem (List.not_mem_nil x)
        · exfalso
          have hmem : x ∈ L.filter (fun y => typeIs y "tool_use") :=
            List.mem_filter.mpr ⟨hxL, by simpa using h⟩
          rw [hC] at hmem
          exact absurd hmem (List.not_mem_nil x)
      have hfg1 : L.filter isThinkingGroupBlock = L :=
        List.filter_eq_self.mpr hallg1
      rcases hlast with rfl | ⟨zs, w, hLeq, hnr⟩
      · left
        simp
      · right
        have hwmem : w ∈ L := by
          rw [hLeq]
          exact List.mem_append.mpr (Or.inr (List.mem_singleton_self w))
        have hw := hpost w hwmem
        have hwg1 := hallg1 w hwmem
        by_cases ht : typeIs w "thinking" = true
        · obtain ⟨hval, hfix⟩ := hw.2 ht
          refine ⟨zs.map sanitizeAnthropicThinkingBlock, w, ?_,
            not_removable_of_valid hval⟩
          rw [hB, hC, List.append_nil, List.append_nil, hfg1, hLeq,
            List.map_append]
          simp [hfix]
        · exfalso
          have hor : typeIs w "thinking" = true ∨
              typeIs w "redacted_thinking" = true := by
            simpa [isThinkingGroupBlock] using hwg1
          rcases hor with h | h
          · exact ht h
          · have hrm := removable_of_good_redacted hw.1 h
            rw [hnr] at hrm
            exact absurd hrm Bool.false_ne_true
    · right
      refine ⟨(L.filter isThinkingGroupBlock).map
          sanitizeAnthropicThinkingBlock ++ B0, m, ?_, ?_⟩
      · rw [hC, hBeq, List.concat_eq_append, List.append_nil,
          ← List.append_assoc]
      · have hmmem : m ∈ L.filter keepMiddleBlock := by
          rw [hBeq, List.concat_eq_append]
          exact List.mem_append.mpr (Or.inr (List.mem_singleton_self m))
        have hmf := List.mem_filter.mp hmmem
        exact not_removable_of_not_group (hpost m hmf.1).1
          (keepMiddle_not_group hmf.2).1
  · right
    refine ⟨(L.filter isThinkingGroupBlock).map
        sanitizeAnthropicThinkingBlock ++ L.filter keepMiddleBlock ++ C0,
      c, ?_, ?_⟩
    · rw [hCeq, List.concat_eq_append, ← List.append_assoc]
    · have hcmem : c ∈ L.filter (fun x => typeIs x "tool_use") := by
        rw [hCeq, List.concat_eq_append]
        exact List.mem_append.mpr (Or.inr (List.mem_singleton_self c))
      have hcf := List.mem_filter.mp hcmem
      exact not_removable_of_not_group (hpost c hcf.1).1
        (tool_not_group (by simpa using hcf.2))

/-- Applying the pipeline to the reordered output of its strip stage
changes nothing: the key step of the idempotence proof. -/
theorem assistantPipeline_output_fixed (t : List JVal)
    (hpost : ∀ x ∈ t, goodBlock x = true ∧ (typeIs x "thinking" = true →
      hasValidSignature x = true ∧ sanitizeAnthropicThinkingBlock x = x))
    (hlast : t = [] ∨ ∃ zs a, t = zs ++ [a] ∧ removableThinking a = false) :
    assistantPipeline (reorderCore t) = reorderCore t := by
  cases t with
  | nil => rfl
  | cons b tb =>
    cases tb with
    | nil =>
      have hb := hpost b (List.mem_singleton_self b)
      by_cases hg1 : isThinkingGroupBlock b = true
      · by_cases ht : typeIs b "thinking" = true
        · obtain ⟨hval, hfix⟩ := hb.2 ht
          have ho : reorderCore [b] = [b] := by
            show (if jsTruthy b &&
                (typeIs b "thinking" || typeIs b "redacted_thinking") then
              [sanitizeAnthropicThinkingBlock b] else [b]) = [b]
            rw [good_truthy hb.1, ht]
            simp [hfix]
          rw [ho]
          show reorderCore (removeTrailingCore (restoreCore [b])) = [b]
          rw [restoreCore_fixed [b] hpost,
            removeTrailingCore_eq_self [b]
              (Or.inr ⟨[], b, by simp, not_removable_of_valid hval⟩)]
          exact ho
        · exfalso
          have hor : typeIs b "thinking" = true ∨
              typeIs b "redacted_thinking" = true := by
            simpa [isThinkingGroupBlock] using hg1
          have hr2 : typeIs b "redacted_thinking" = true := by
            rcases hor with h | h
            · exact absurd h ht
            · exact h
          rcases hlast with h | ⟨zs, a, heq, hnr⟩
          · exact absurd h (by simp)
          · have hab : a = b := by
              cases zs with
              | nil => simpa using heq.symm
              | cons c cs =>
                exfalso
                have hlen := congrArg List.length heq
                simp [List.length_append] at hlen
            rw [hab] at hnr
            have hrm := removable_of_good_redacted hb.1 hr2
            rw [hnr] at hrm
            exact absurd hrm Bool.false_ne_true
      · have hg1f : isThinkingGroupBlock b = false := by simpa using hg1
        have ho : reorderCore [b] = [b] := by
          show (if jsTruthy b &&
              (typeIs b "thinking" || typeIs b "redacted_thinking") then
            [sanitizeAnthropicThinkingBlock b] else [b]) = [b]
          have hcond : (typeIs b "thinking" ||
              typeIs b "redacted_thinking") = false := by
            simpa [isThinkingGroupBlock] using hg1f
          rw [hcond]
          simp
        rw [ho]
        show reorderCore (removeTrailingCore (restoreCore [b])) = [b]
        rw [restoreCore_fixed [b] hpost,
          removeTrailingCore_eq_self [b]
            (Or.inr ⟨[], b, by simp,
              not_removable_of_not_group hb.1 hg1f⟩)]
        exact ho
    | cons b2 rest =>
      have htruthy : ∀ x ∈ b :: b2 :: rest, jsTruthy x = true :=
        fun x hx => good_truthy (hpost x hx).1
      have ho : reorderCore (b :: b2 :: rest) =
          ((b :: b2 :: rest).filter isThinkingGroupBlock).map
            sanitizeAnthropicThinkingBlock ++
          (b :: b2 :: rest).filter keepMiddleBlock ++
          (b :: b2 :: rest).filter (fun x => typeIs x "tool_use") := by
        show (let p := reorderPartition (b :: b2 :: rest);
          p.1 ++ p.2.1 ++ p.2.2) = _
        rw [reorderPartition_filter _ htruthy]
      have hAseg : ∀ x ∈ ((b :: b2 :: rest).filter isThinkingGroupBlock).map
          sanitizeAnthropicThinkingBlock,
          isThinkingGroupBlock x = true ∧
          sanitizeAnthropicThinkingBlock x = x ∧ goodBlock x = true ∧
          (typeIs x "thinking" = true → hasValidSignature x = true) := by
        intro x hx
        rcases List.mem_map.mp hx with ⟨e, he, rfl⟩
        have hef := List.mem_filter.mp he
        have hE := hpost e hef.1
        by_cases ht : typeIs e "thinking" = true
        · obtain ⟨hval, hfix⟩ := hE.2 ht
          rw [hfix]
          exact ⟨hef.2, hfix, hE.1, fun _ => hval⟩
        · have hor : typeIs e "thinking" = true ∨
              typeIs e "redacted_thinking" = true := by
            simpa [isThinkingGroupBlock] using hef.2
          have hr2 : typeIs e "redacted_thinking" = true := by
            rcases hor with h | h
            · exact absurd h ht
            · exact h
          have htf : typeIs e "thinking" = false := by simpa using ht
          rw [sanitize_redacted_eq e (good_truthy hE.1) htf hr2]
          refine ⟨?_, sanitize_redactedNormal _, goodBlock_redactedNormal _, ?_⟩
          · simp [isThinkingGroupBlock, redactedNormal_type]
          · intro hth
            rw [redactedNormal_not_thinking] at hth
            exact absurd hth Bool.false_ne_true
      have hBseg : ∀ x ∈ (b :: b2 :: rest).filter keepMiddleBlock,
          keepMiddleBlock x = true ∧ goodBlock x = true ∧
          (typeIs x "thinking" = true → hasValidSignature x = true ∧
            sanitizeAnthropicThinkingBlock x = x) := by
        intro x hx
        have hxf := List.mem_filter.mp hx
        exact ⟨hxf.2, (hpost x hxf.1).1, (hpost x hxf.1).2⟩
      have hCseg : ∀ x ∈ (b :: b2 :: rest).filter
          (fun x => typeIs x "tool_use"),
          typeIs x "tool_use" = true ∧ goodBlock x = true := by
        intro x hx
        have hxf := List.mem_filter.mp hx
        exact ⟨by simpa using hxf.2, (hpost x hxf.1).1⟩
      rw [ho]
      exact grouped_pipeline_fixed _ _ _ hAseg hBseg hCseg
        (grouped_last (b :: b2 :: rest) hpost hlast)

/-- A Gemini-style thought part mixed into Anthropic assistant content:
thought === true with text, but no Anthropic type field. -/
def thoughtPartEx : JVal := .obj [("thought", .bool true), ("text", .str "x")]

/-- A validly signed Anthropic thinking block in minimal field order (the
signature is 50 characters long). -/
def signedThinkingEx : JVal :=
  .obj [("type", .str "thinking"), ("thinking", .str "t"),
    ("signature", .str "01234567890123456789012345678901234567890123456789")]

/-- C7 counterexample: the three-step pipeline
restoreThinkingSignatures → removeTrailingThinkingBlocks →
reorderAssistantContent is not idempotent.  On
[thought part, signed thinking block] one pass keeps both blocks but
reorders them, moving the thought part behind the thinking block; the
second pass then finds the thought part trailing, treats it as an
unsigned thinking part and drops it, so applying the pipeline twice
yields a shorter result than applying it once. -/
theorem pipeline_idempotence_counterexample :
    (assistantPipeline [thoughtPartEx, signedThinkingEx]).length = 2 ∧
    (assistantPipeline
      (assistantPipeline [thoughtPartEx, signedThinkingEx])).length = 1 ∧
    assistantPipeline (assistantPipeline [thoughtPartEx, signedThinkingEx]) ≠
      assistantPipeline [thoughtPartEx, signedThinkingEx] := by
  refine ⟨rfl, rfl, fun h => ?_⟩
  have hl := congrArg List.length h
  rw [show (assistantPipeline
      (assistantPipeline [thoughtPartEx, signedThinkingEx])).length = 1
      from rfl,
    show (assistantPipeline [thoughtPartEx, signedThinkingEx]).length = 2
      from rfl] at hl
  exact absurd hl (by decide)

/-- C7 (amended): the assistant normalization pipeline
(restoreThinkingSignatures, then removeTrailingThinkingBlocks, then
reorderAssistantContent) is idempotent on content arrays of well-formed
blocks: truthy objects that are not Gemini thought parts, whose thinking
field only occurs on 'thinking'-typed blocks, whose text blocks carry
meaningful string text, whose signature field (when present) is a string,
and whose redacted_thinking blocks carry no signature field.  On
arbitrary content the pipeline is not idempotent (see the
counterexample): reordering can move a removable thinking-like block into
trailing position, where a second pass drops it. -/
theorem assistant_pipeline_idempotent_amended (xs : List JVal)
    (hg : ∀ b ∈ xs, goodBlock b = true) :
    assistantPipeline (assistantPipeline xs) = assistantPipeline xs := by
  have hpost := restoreCore_post xs hg
  exact assistantPipeline_output_fixed (removeTrailingCore (restoreCore xs))
    (fun x hx => hpost x (mem_removeTrailingCore hx))
    (removeTrailingCore_last (restoreCore xs))

/-- Witness for the amended C7 theorem at a concrete well-formed content
array holding a tool_use block, a meaningful text block and a signed
thinking block. -/
theorem assistant_pipeline_idempotent_amended_witness :
    (∀ b ∈ ([.obj [("type", .str "tool_use"), ("name", .str "t")], textHiEx,
        signedThinkingEx] : List JVal), goodBlock b = true) ∧
    assistantPipeline (assistantPipeline
        [.obj [("type", .str "tool_use"), ("name", .str "t")], textHiEx,
          signedThinkingEx]) =
      assistantPipeline
        [.obj [("type", .str "tool_use"), ("name", .str "t")], textHiEx,
          signedThinkingEx] :=
  ⟨by decide, assistant_pipeline_idempotent_amended _ (by decide)⟩

end Proxy
